import Mathlib

/-!
Shallow embedding of the fast value transcoder of the `cast` repository.

The embedding models the Go source faithfully:
* Go runtime values are modelled by the inductive `GoVal`, Go types by `GoType`.
  Values are finite trees, so cyclic heap shapes are out of model; machine
  integers and strings are carried as `ScalarLit` payloads that the transcoder
  itself never inspects (it only moves already-typed scalar values).
* `reflect` operations that can panic are modelled in the `Run` monad
  (`Except RunErr`); a Go panic is the `RunErr.crash` outcome.
* Recursion of the encoder and materializer follows arena indices and value
  structure; it is made total with an explicit fuel parameter, and running out
  of fuel is the distinguished outcome `RunErr.fuelOut` (never confused with a
  panic).  All theorems either quantify over the fuel or use an ample amount.
* The process-wide encoder / field caches of the source are pure memoization
  of type-directed computation, so they are modelled by plain functions; the
  per-type encoder dispatch of `typeEncoder`/`newTypeEncoder` becomes dispatch
  on the head constructor of the (self-typed) value, which is the same case
  split the Go `Kind()` switch performs.
-/

set_option linter.unusedVariables false

/-- The scalar kinds enumerated by the scalar arm of `newTypeEncoder`. -/
inductive ScalarKind where
  | bool | int | int8 | int16 | int32 | int64
  | uint | uint8 | uint16 | uint32 | uint64
  | float32 | float64 | complex64 | complex128 | string
deriving DecidableEq, Repr

/-- Payload of a scalar value.  The transcoder never computes with payloads;
strings are carried concretely because `reflect.Value.Len` and map keys read
them, the rest is an opaque literal. -/
inductive ScalarLit where
  | intL (n : Int)
  | strL (s : String)
  | boolL (b : Bool)
  | otherL (tag : Nat)
deriving DecidableEq, Repr

mutual
/-- Go types, as far as the transcoder's `Kind()` dispatch distinguishes them.
Named types are not distinguished from their underlying type (the source only
follows unnamed pointer types when flattening embedded fields; in this model
every pointer type is treated as unnamed). -/
inductive GoType where
  | scalar (k : ScalarKind)
  | ptr (elem : GoType)
  | iface
  | slice (elem : GoType)
  | array (n : Nat) (elem : GoType)
  | mapT (key : GoType) (elem : GoType)
  | structT (fields : StructFieldList)
  | chanT
  | funcT
deriving DecidableEq, Repr
inductive StructFieldList where
  | nil
  | cons (head : StructField) (tail : StructFieldList)
deriving DecidableEq, Repr
/-- One declared struct field: identifier, raw `json` tag value, whether the
field is embedded (anonymous), whether it is exported, and its type. -/
inductive StructField where
  | mk (fname : String) (tag : String) (anonymous : Bool) (exported : Bool) (ftype : GoType)
deriving DecidableEq, Repr
end

def StructField.fname : StructField → String
  | .mk n _ _ _ _ => n

def StructField.tag : StructField → String
  | .mk _ t _ _ _ => t

def StructField.anonymous : StructField → Bool
  | .mk _ _ a _ _ => a

def StructField.exported : StructField → Bool
  | .mk _ _ _ e _ => e

def StructField.ftype : StructField → GoType
  | .mk _ _ _ _ t => t

def StructFieldList.toList : StructFieldList → List StructField
  | .nil => []
  | .cons f tl => f :: tl.toList

/-- Go runtime values.  Each composite value carries the element types its
`reflect.Type` would report, so the destination side can allocate fresh zero
values (`reflect.New`, `reflect.MakeSlice`, `reflect.MakeMap`).  `none` in a
pointer / slice / map / interface position is the nil value of that kind. -/
inductive GoVal where
  | scalar (k : ScalarKind) (lit : ScalarLit)
  | ptr (elem : GoType) (pointee : Option GoVal)
  | iface (content : Option GoVal)
  | slice (elem : GoType) (elems : Option (List GoVal))
  | arrayV (elem : GoType) (vals : List GoVal)
  | mapV (key : GoType) (elem : GoType) (entries : Option (List (GoVal × GoVal)))
  | structV (fields : StructFieldList) (vals : List GoVal)
  | otherV (t : GoType) (nilV : Bool)
deriving Repr

/-- The zero `ScalarLit` of a scalar kind. -/
def zeroLit : ScalarKind → ScalarLit
  | .bool => .boolL false
  | .string => .strL ""
  | .int | .int8 | .int16 | .int32 | .int64
  | .uint | .uint8 | .uint16 | .uint32 | .uint64 => .intL 0
  | .float32 | .float64 | .complex64 | .complex128 => .otherL 0

mutual
/-- The zero value of a type (`reflect.Zero`, and the pointee created by
`reflect.New`). -/
def zeroVal : GoType → GoVal
  | .scalar k => .scalar k (zeroLit k)
  | .ptr e => .ptr e none
  | .iface => .iface none
  | .slice e => .slice e none
  | .array n e => .arrayV e (List.replicate n (zeroVal e))
  | .mapT k e => .mapV k e none
  | .structT fs => .structV fs (zeroVals fs)
  | .chanT => .otherV .chanT true
  | .funcT => .otherV .funcT true
def zeroVals : StructFieldList → List GoVal
  | .nil => []
  | .cons (.mk _ _ _ _ ty) tl => zeroVal ty :: zeroVals tl
end

/-- The `reflect.Type` of a value. -/
def goTypeOf : GoVal → GoType
  | .scalar k _ => .scalar k
  | .ptr e _ => .ptr e
  | .iface _ => .iface
  | .slice e _ => .slice e
  | .arrayV e vs => .array vs.length e
  | .mapV k e _ => .mapT k e
  | .structV fs _ => .structT fs
  | .otherV t _ => t

/-- Outcomes that abort a run: a Go panic (`crash`), or exhaustion of the
explicit recursion fuel of the model (`fuelOut`). -/
inductive RunErr where
  | crash (msg : String)
  | fuelOut
deriving DecidableEq, Repr

abbrev Run (α : Type) := Except RunErr α

/-- `reflect.Value.IsNil`: panics unless the kind is chan, func, interface,
map, pointer or slice. -/
def goIsNil : GoVal → Run Bool
  | .ptr _ p => .ok p.isNone
  | .mapV _ _ e => .ok e.isNone
  | .slice _ e => .ok e.isNone
  | .iface c => .ok c.isNone
  | .otherV _ b => .ok b
  | .scalar _ _ => .error (.crash "reflect: IsNil on non-nillable value")
  | .arrayV _ _ => .error (.crash "reflect: IsNil on non-nillable value")
  | .structV _ _ => .error (.crash "reflect: IsNil on non-nillable value")

def litString : ScalarLit → String
  | .strL s => s
  | _ => ""

/-- `reflect.Value.Len`: defined for slices, arrays, maps and strings
(channels are left out of the model), panics otherwise. -/
def goLen : GoVal → Run Nat
  | .slice _ es => .ok (es.getD []).length
  | .arrayV _ vs => .ok vs.length
  | .mapV _ _ es => .ok (es.getD []).length
  | .scalar .string lit => .ok (litString lit).length
  | _ => .error (.crash "reflect: Len on invalid kind")

/-! ## The Arena (`MiddleValueList`) -/

/-- `ValueType`, with the source's constant names; the zero value is
`NilValueType`, which is what freshly reserved child slots hold. -/
inductive ValueType where
  | NilValueType | ValueValueType | SliceValueType | MapValueType
deriving DecidableEq, Repr

/-- One arena node.  `value` models the stored `reflect.Value` (only the
scalar encoder stores one); the zero node has an invalid (absent) value. -/
structure MiddleValue where
  type : ValueType := .NilValueType
  name : String := ""
  value : Option GoVal := none
  length : Nat := 0
  first : Nat := 0
deriving Repr

/-- The arena, modelled at Go slice level: `buf` is the backing array and
`len` the slice length, so data beyond `len` (stale nodes of a previous
conversion) is representable.  The initial capacity 256 of the source is
abstracted: `push` grows the backing array exactly when it is full, which
coincides with Go's behaviour while capacity is not exceeded. -/
structure MiddleValueList where
  buf : List MiddleValue
  len : Nat
deriving Repr

def MiddleValueList.get (l : MiddleValueList) (i : Nat) : MiddleValue :=
  l.buf.getD i {}

def MiddleValueList.set (l : MiddleValueList) (i : Nat) (x : MiddleValue) : MiddleValueList :=
  { buf := l.buf.set i x, len := l.len }

/-- `l.List = append(l.List, x)`. -/
def MiddleValueList.push (l : MiddleValueList) (x : MiddleValue) : MiddleValueList :=
  if l.len < l.buf.length then { buf := l.buf.set l.len x, len := l.len + 1 }
  else { buf := l.buf ++ [x], len := l.len + 1 }

/-- The reservation loop `for i := 0; i < n; i++ { l.List = append(l.List, MiddleValue{}) }`. -/
def MiddleValueList.pushN : MiddleValueList → Nat → MiddleValueList
  | l, 0 => l
  | l, n + 1 => (l.push {}).pushN n

/-- The sub-slice `l.List[first : first+n]`. -/
def MiddleValueList.nodes (l : MiddleValueList) (first n : Nat) : List MiddleValue :=
  (List.range n).map (fun i => l.get (first + i))

/-- `(b *MiddleValueList) Reset`: writes a zero root and truncates the length
to 1.  Note that `b.List = b.List[:1]` keeps the backing array. -/
def MiddleValueList.Reset (b : MiddleValueList) : MiddleValueList :=
  { buf := b.buf.set 0 {}, len := 1 }

/-- `newMiddleValueList`: reuse a pooled arena after `Reset`, or allocate a
fresh one whose single element is the zero root. -/
def newMiddleValueList (pooled : Option MiddleValueList) : MiddleValueList :=
  match pooled with
  | some l => l.Reset
  | none => { buf := [{}], len := 1 }

/-! ## Field Resolver (`typeFields` and helpers) -/

/-- `parseTag` (`strings.Cut(tag, ",")`): everything before the first
comma. -/
def parseTag (tag : String) : String :=
  String.mk (tag.toList.takeWhile (fun c => c ≠ ','))

/-- `isValidTag`.  `unicode.IsLetter`/`IsDigit` are approximated by their
ASCII restrictions `Char.isAlpha`/`Char.isDigit`. -/
def isValidTag (s : String) : Bool :=
  s ≠ "" && s.toList.all (fun c =>
    if ("!#$%&()*+-./:;<=>?@[]^_\x7b|\x7d~ ".toList.contains c) then true
    else c.isAlpha || c.isDigit)

/-- A resolved field (`type field` of the source).  The memoized `encoder`
member is omitted: in this model encoding dispatches on the value itself, so
the per-field encoder function is not materialized. -/
structure field where
  name : String
  tag : Bool
  index : List Nat
  typ : GoType
deriving DecidableEq, Repr

/-- `byIndex.Less`: lexicographic comparison of index sequences, with a
strict prefix ordered first. -/
def byIndexLess : List Nat → List Nat → Bool
  | [], b => decide (0 < b.length)
  | _ :: _, [] => false
  | x :: xs, y :: ys => if x ≠ y then decide (x < y) else byIndexLess xs ys

/-- Lexicographic order on character lists, with a strict prefix first: the
order Go's `<` uses on strings (modelled over characters rather than
bytes). -/
def charListLt : List Char → List Char → Bool
  | [], [] => false
  | [], _ :: _ => true
  | _ :: _, [] => false
  | c :: cs, d :: ds => if c ≠ d then decide (c < d) else charListLt cs ds

/-- String comparison `a < b` of the sort comparator. -/
def strLt (a b : String) : Bool := charListLt a.toList b.toList

/-- The comparison closure passed to `sort.Slice` in `typeFields`: name, then
index length (embedding depth), then presence of a tag (tagged first), then
index sequence. -/
def fieldLess (a b : field) : Bool :=
  if a.name ≠ b.name then strLt a.name b.name
  else if a.index.length ≠ b.index.length then decide (a.index.length < b.index.length)
  else if a.tag ≠ b.tag then a.tag
  else byIndexLess a.index b.index

/-- `dominantField`: the candidates arrive sorted, so only the first two need
checking; two candidates at equal depth with equal tag status annihilate the
name.  (The source indexes `fields[0]`, so it is never called on `[]`.) -/
def dominantField (fields : List field) : Option field :=
  match fields with
  | [] => none
  | [f] => some f
  | f0 :: f1 :: _ =>
    if f0.index.length = f1.index.length ∧ f0.tag = f1.tag then none else some f0

def isStructType : GoType → Bool
  | .structT _ => true
  | _ => false

def structFieldsOf : GoType → List StructField
  | .structT fs => fs.toList
  | _ => []

/-- Running state of one BFS level of `typeFields`. -/
structure levelState where
  visited : List GoType
  fields : List field
  next : List field
  nextCount : List GoType

/-- The body of the inner `for i` loop of `typeFields`, for one declared
field `sf` at position `i` of the struct `f.typ`. -/
def scanField (count : List GoType) (f : field) (st : levelState) (i : Nat)
    (sf : StructField) : levelState :=
  let skip :=
    if sf.anonymous then
      let t1 := match sf.ftype with | .ptr e => e | t => t
      !sf.exported && !(isStructType t1)
    else !sf.exported
  if skip then st
  else if sf.tag == "-" then st
  else
    let name0 := parseTag sf.tag
    let name1 := if isValidTag name0 then name0 else ""
    let index := f.index ++ [i]
    let ft := match sf.ftype with | .ptr e => e | t => t
    if name1 ≠ "" || !sf.anonymous || !(isStructType ft) then
      let tagged := name1 ≠ ""
      let nm := if name1 = "" then sf.fname else name1
      let entry : field := ⟨nm, tagged, index, ft⟩
      let fields1 := st.fields ++ [entry]
      let fields2 := if count.count f.typ > 1 then fields1 ++ [entry] else fields1
      { st with fields := fields2 }
    else
      let nextCount1 := st.nextCount ++ [ft]
      if nextCount1.count ft = 1 then
        { st with nextCount := nextCount1, next := st.next ++ [⟨"", false, index, ft⟩] }
      else
        { st with nextCount := nextCount1 }

/-- One queued entry of a BFS level: skip already visited types, otherwise
mark visited and scan every declared field. -/
def scanEntry (count : List GoType) (st : levelState) (f : field) : levelState :=
  if st.visited.contains f.typ then st
  else
    let st1 := { st with visited := f.typ :: st.visited }
    (structFieldsOf f.typ).enum.foldl (fun acc iv => scanField count f acc iv.1 iv.2) st1

/-- The `for len(next) > 0` level loop of `typeFields`.  The fuel bounds the
number of levels; `sizeOf t` levels always suffice because every level visits
at least one previously unvisited struct subterm of `t` (or terminates). -/
def typeFieldsBfs (fuel : Nat) (count : List GoType) (visited : List GoType)
    (next : List field) (fields : List field) : List field :=
  match fuel with
  | 0 => fields
  | fuel + 1 =>
    if next.isEmpty then fields
    else
      let st0 : levelState := ⟨visited, fields, [], []⟩
      let st := next.foldl (scanEntry count) st0
      typeFieldsBfs fuel st.nextCount st.visited st.next st.fields

mutual
/-- Structural size of a type, used as a level bound for the BFS. -/
def goTypeSize : GoType → Nat
  | .scalar _ => 1
  | .ptr e => 1 + goTypeSize e
  | .iface => 1
  | .slice e => 1 + goTypeSize e
  | .array _ e => 1 + goTypeSize e
  | .mapT k e => 1 + goTypeSize k + goTypeSize e
  | .structT fs => 1 + goFieldsSize fs
  | .chanT => 1
  | .funcT => 1
def goFieldsSize : StructFieldList → Nat
  | .nil => 1
  | .cons (.mk _ _ _ _ ty) tl => 1 + goTypeSize ty + goFieldsSize tl
end

/-- The unsorted candidate list collected by the BFS of `typeFields`. -/
def typeFieldsCollect (t : GoType) : List field :=
  typeFieldsBfs (goTypeSize t) [] [] [⟨"", false, [], t⟩] []

/-- Non-strict version of `fieldLess`, the order established by
`sort.Slice(fields, ...)`. -/
def fieldLeR (a b : field) : Prop := fieldLess b a = false

instance : DecidableRel fieldLeR := fun a b =>
  inferInstanceAs (Decidable (fieldLess b a = false))

/-- Non-strict version of `byIndex.Less`, the order established by the final
`sort.Sort(byIndex(fields))`. -/
def byIndexLeR (a b : field) : Prop := byIndexLess b.index a.index = false

instance : DecidableRel byIndexLeR := fun a b =>
  inferInstanceAs (Decidable (byIndexLess b.index a.index = false))

/-- The name-grouping loop of `typeFields`: one iteration per maximal run of
equal names; a singleton run survives as is, a longer run is decided by
`dominantField`. -/
def dedupFieldsF : Nat → List field → List field
  | _, [] => []
  | 0, _ :: _ => []
  | fu + 1, f :: rest =>
    let run := rest.takeWhile (fun g => g.name == f.name)
    let rest1 := rest.dropWhile (fun g => g.name == f.name)
    (if run.isEmpty then [f]
     else match dominantField (f :: run) with
       | some d => [d]
       | none => []) ++ dedupFieldsF fu rest1

/-- `dedupFields` runs the grouping loop; one fuel unit per run always
suffices, so the list length is an ample bound. -/
def dedupFields (l : List field) : List field := dedupFieldsF l.length l

/-- The published table: the visible-field list plus exact-name lookup. -/
structure structFields where
  list : List field
deriving Repr

/-- The `byExactName` map is built by one forward pass inserting
`name -> field`, so a lookup returns the last field with that name. -/
def structFields.byExactName (sf : structFields) (n : String) : Option field :=
  sf.list.reverse.find? (fun f => f.name == n)

/-- `typeFields`: collect candidates breadth-first, sort by the
name/depth/tag/index comparator, annihilate ambiguous names, then re-sort by
index sequence.  `sort.Slice`/`sort.Sort` are modelled by `insertionSort`;
the comparators are total and distinguish all distinct records that can share
a candidate list, so every comparison sort produces this list. -/
def typeFields (t : GoType) : structFields :=
  let fields0 := typeFieldsCollect t
  let sorted := List.insertionSort fieldLeR fields0
  let out := dedupFields sorted
  let fields1 := List.insertionSort byIndexLeR out
  ⟨fields1⟩

/-- `cachedTypeFields`: the process-wide cache is pure memoization. -/
def cachedTypeFields (t : GoType) : structFields := typeFields t

/-! ## Type-Encoder (`reflectValue` fused with the per-kind encoders) -/

/-- `validMapKey`: only keys whose kind is string can be read as a plain
string; everything else is flagged invalid. -/
def validMapKey (key : GoVal) : String × Bool :=
  match key with
  | .scalar .string lit => (litString lit, true)
  | _ => ("", false)

/-- The access-path walk of the struct encoder: per path component,
dereference at most one pointer level (reporting `none` — the `breakNil`
flag — at an empty pointer) and then take the numbered field. -/
def fieldWalk : GoVal → List Nat → Run (Option GoVal)
  | v, [] => .ok (some v)
  | .ptr _ none, _ :: _ => .ok none
  | .ptr _ (some e), i :: rest =>
    match e with
    | .structV _ vals =>
      match vals.get? i with
      | some fv => fieldWalk fv rest
      | none => .error (.crash "reflect: Field index out of range")
    | _ => .error (.crash "reflect: Field of non-struct value")
  | v, i :: rest =>
    match v with
    | .structV _ vals =>
      match vals.get? i with
      | some fv => fieldWalk fv rest
      | none => .error (.crash "reflect: Field index out of range")
    | _ => .error (.crash "reflect: Field of non-struct value")

/-- Pending work of one step of the encoder: `val` is the body of
`reflectValue`/`newTypeEncoder` for one value and node, the `Start` tasks
are the reserve phases and the remaining tasks the fill loops of the
composite encoder arms. -/
inductive EncTask where
  | val (current : Nat) (v : GoVal)
  | seqStart (current : Nat) (elems : List GoVal)
  | seqElems (endIdx i : Nat) (elems : List GoVal)
  | mapStart (current : Nat) (entries : List (GoVal × GoVal))
  | mapEntries (endIdx i : Nat) (entries : List (GoVal × GoVal))
  | structStart (current : Nat) (v : GoVal)
  | structFs (endIdx j : Nat) (v : GoVal) (fs : List field)

/-- The encoder (`reflectValue` with `valueEncoder`/`typeEncoder`/
`newTypeEncoder` inlined), written as a single fuel-recursive step function
so that runs reduce definitionally.  The global encoder cache is memoization
of the per-kind dispatch, so the model dispatches directly on the head
constructor of the self-typed value — the same case split the Go `Kind()`
switch performs.

* a nil interface or pointer overwrites the node with a bare Null node;
* a non-nil interface or pointer delegates to its content;
* a scalar stores the value itself in a Scalar node;
* arrays/slices mark a List node, reserve `n` zero children before any
  recursion, then fill them in source order;
* maps mark a Keyed node, reserve one child per entry, and fill a child
  (setting its name afterwards) only for entries with a readable string
  key — an invalid key is skipped without advancing the child cursor;
* structs mark a Keyed node, reserve one child per visible field of the
  cached field plan, and fill each by walking the field's access path,
  emitting a named Null child when the path crosses an empty pointer;
* values of any other kind (chan, func, ...) get the no-op encoder. -/
def encodeRun : Nat → MiddleValueList → EncTask → Run MiddleValueList
  | 0, _, _ => .error .fuelOut
  | fuel + 1, l, .val current v =>
    match v with
    | .iface none => .ok (l.set current { type := .NilValueType })
    | .iface (some e) => encodeRun fuel l (.val current e)
    | .ptr _ none => .ok (l.set current { type := .NilValueType })
    | .ptr _ (some e) => encodeRun fuel l (.val current e)
    | .scalar k lit =>
      .ok (l.set current { type := .ValueValueType, value := some (.scalar k lit) })
    | .slice _ elems => encodeRun fuel l (.seqStart current (elems.getD []))
    | .arrayV _ vals => encodeRun fuel l (.seqStart current vals)
    | .mapV _ _ entries => encodeRun fuel l (.mapStart current (entries.getD []))
    | .structV fs vals => encodeRun fuel l (.structStart current (.structV fs vals))
    | .otherV _ _ => .ok l
  | fuel + 1, l, .seqStart current elems =>
    let n := elems.length
    let l1 := l.set current { l.get current with type := .SliceValueType }
    if n = 0 then .ok l1
    else
      let endIdx := l1.len
      let l2 := l1.set current
        { l1.get current with type := .SliceValueType, length := n, first := endIdx }
      encodeRun fuel (l2.pushN n) (.seqElems endIdx 0 elems)
  | fuel + 1, l, .seqElems endIdx i elems =>
    match elems with
    | [] => .ok l
    | e :: tl =>
      match encodeRun fuel l (.val (endIdx + i) e) with
      | .error err => .error err
      | .ok l1 => encodeRun fuel l1 (.seqElems endIdx (i + 1) tl)
  | fuel + 1, l, .mapStart current entries =>
    let n := entries.length
    let l1 := l.set current { l.get current with type := .MapValueType }
    if n = 0 then .ok l1
    else
      let endIdx := l1.len
      let l2 := l1.set current
        { l1.get current with type := .MapValueType, length := n, first := endIdx }
      encodeRun fuel (l2.pushN n) (.mapEntries endIdx 0 entries)
  | fuel + 1, l, .mapEntries endIdx i entries =>
    match entries with
    | [] => .ok l
    | (k, v) :: tl =>
      let kv := validMapKey k
      if !kv.2 then encodeRun fuel l (.mapEntries endIdx i tl)
      else
        match encodeRun fuel l (.val (endIdx + i) v) with
        | .error err => .error err
        | .ok l1 =>
          encodeRun fuel (l1.set (endIdx + i) { l1.get (endIdx + i) with name := kv.1 })
            (.mapEntries endIdx (i + 1) tl)
  | fuel + 1, l, .structStart current v =>
    let fields := cachedTypeFields (goTypeOf v)
    let n := fields.list.length
    let l1 := l.set current { l.get current with type := .MapValueType }
    if n = 0 then .ok l1
    else
      let endIdx := l1.len
      let l2 := l1.set current
        { l1.get current with type := .MapValueType, length := n, first := endIdx }
      encodeRun fuel (l2.pushN n) (.structFs endIdx 0 v fields.list)
  | fuel + 1, l, .structFs endIdx j v fs =>
    match fs with
    | [] => .ok l
    | f :: tl =>
      match fieldWalk v f.index with
      | .error err => .error err
      | .ok none =>
        encodeRun fuel (l.set (endIdx + j) { type := .NilValueType, name := f.name })
          (.structFs endIdx (j + 1) v tl)
      | .ok (some fv) =>
        match encodeRun fuel l (.val (endIdx + j) fv) with
        | .error err => .error err
        | .ok l1 =>
          encodeRun fuel (l1.set (endIdx + j) { l1.get (endIdx + j) with name := f.name })
            (.structFs endIdx (j + 1) v tl)

/-- `reflectValue(l, current, v)`: run the encoder on one value. -/
def reflectValue (fuel : Nat) (l : MiddleValueList) (current : Nat) (v : GoVal) :
    Run MiddleValueList :=
  encodeRun fuel l (.val current v)

/-! ## Boxing into `interface{}` (`valueInterface` and friends) -/

/-- A `[]interface{}` value boxed as a `GoVal`. -/
def boxArray (arr : List (Option GoVal)) : GoVal :=
  .slice .iface (some (arr.map (fun o => .iface o)))

/-- A `map[string]interface{}` value boxed as a `GoVal`. -/
def boxObject (obj : List (String × Option GoVal)) : GoVal :=
  .mapV (.scalar .string) .iface
    (some (obj.map (fun kv => (.scalar .string (.strL kv.1), .iface kv.2))))

/-- Assignment `r[k] = v` into a string-keyed Go map modelled as an
association list: replace the entry with an equal key, else append. -/
def mapUpsert {α : Type} : List (String × α) → String → α → List (String × α)
  | [], k, v => [(k, v)]
  | (k1, v1) :: tl, k, v =>
    if k1 == k then (k, v) :: tl else (k1, v1) :: mapUpsert tl k v

/-- Pending work of the `interface{}` readback family: one node
(`valueInterface`), the array loop (`arrayInterface`) and the object loop
(`objectInterface`), each loop with the part already built. -/
inductive IfaceTask where
  | val (p : MiddleValue)
  | arr (ps : List MiddleValue) (acc : List (Option GoVal))
  | obj (ps : List MiddleValue) (acc : List (String × Option GoVal))

/-- `valueInterface`/`arrayInterface`/`objectInterface` as one
fuel-recursive step function (`none` is the nil interface).  `arrayInterface`
builds `[]interface{}` in order; `objectInterface` builds
`map[string]interface{}` by successive assignments, so a later node with an
equal name overwrites an earlier one. -/
def ifaceRun : Nat → MiddleValueList → IfaceTask → Run (Option GoVal)
  | 0, _, _ => .error .fuelOut
  | fuel + 1, l, .val p =>
    match p.type with
    | .NilValueType => .ok none
    | .ValueValueType =>
      match p.value with
      | some v => .ok (some v)
      | none => .error (.crash "reflect: Interface of invalid Value")
    | .SliceValueType => ifaceRun fuel l (.arr (l.nodes p.first p.length) [])
    | .MapValueType => ifaceRun fuel l (.obj (l.nodes p.first p.length) [])
  | fuel + 1, l, .arr ps acc =>
    match ps with
    | [] => .ok (some (boxArray acc))
    | p :: tl =>
      match ifaceRun fuel l (.val p) with
      | .error err => .error err
      | .ok h => ifaceRun fuel l (.arr tl (acc ++ [h]))
  | fuel + 1, l, .obj ps acc =>
    match ps with
    | [] => .ok (some (boxObject acc))
    | p :: tl =>
      match ifaceRun fuel l (.val p) with
      | .error err => .error err
      | .ok h => ifaceRun fuel l (.obj tl (mapUpsert acc p.name h))

/-- `valueInterface(l, p)`. -/
def valueInterface (fuel : Nat) (l : MiddleValueList) (p : MiddleValue) :
    Run (Option GoVal) :=
  ifaceRun fuel l (.val p)

/-- `arrayInterface(l, ps)`, boxed. -/
def arrayInterface (fuel : Nat) (l : MiddleValueList) (ps : List MiddleValue) :
    Run (Option GoVal) :=
  ifaceRun fuel l (.arr ps [])

/-- `objectInterface(l, ps)`, boxed. -/
def objectInterface (fuel : Nat) (l : MiddleValueList) (ps : List MiddleValue) :
    Run (Option GoVal) :=
  ifaceRun fuel l (.obj ps [])

/-! ## Materializer (`fromMiddleValue` and friends) -/

/-- One indirection layer resolved by `makeValue`. -/
inductive Layer where
  | ptrL (elem : GoType)
  | ifaceL
deriving Repr

/-- Re-wrap an updated innermost value into the indirection layers resolved
by `makeValue` (this realizes the writes Go performs through the pointers it
walked). -/
def rebuild (ctx : List Layer) (r : GoVal) : GoVal :=
  ctx.foldr (fun layer acc =>
    match layer with
    | .ptrL ty => .ptr ty (some acc)
    | .ifaceL => .iface (some acc)) r

def isPtrVal : GoVal → Bool
  | .ptr _ _ => true
  | _ => false

/-- `makeValue`: resolve the destination through interface-held pointers and
pointer layers, allocating a zero pointee (`reflect.New`) at every nil
pointer written through; stops at the first non-pointer destination.  The
source's guard against an interface holding a pointer to its own address
compares `reflect.Value` identities; such a cyclic value is not representable
among the finite values modelled here, so the guard is never true. -/
def makeValue (fuel : Nat) (v : GoVal) : Run (GoVal × List Layer) :=
  match fuel with
  | 0 => .error .fuelOut
  | fuel + 1 =>
    match v with
    | .iface (some (.ptr ty (some inner))) =>
      if isPtrVal inner then
        match makeValue fuel (.ptr ty (some inner)) with
        | .error err => .error err
        | .ok rc => .ok (rc.1, .ifaceL :: rc.2)
      else .ok (.iface (some (.ptr ty (some inner))), [])
    | .ptr ty pointee =>
      match makeValue fuel (pointee.getD (zeroVal ty)) with
      | .error err => .error err
      | .ok rc => .ok (rc.1, .ptrL ty :: rc.2)
    | _ => .ok (v, [])

def isStringKind : GoType → Bool
  | .scalar .string => true
  | _ => false

def goStrKey : GoVal → String
  | .scalar .string lit => litString lit
  | _ => ""

/-- `destValue.SetMapIndex(key, elem)` for the string-keyed maps reached by
`fromMapToMap`: replace the entry with an equal key, otherwise append. -/
def setMapIndex (entries : List (GoVal × GoVal)) (k : String) (v : GoVal) :
    List (GoVal × GoVal) :=
  match entries with
  | [] => [(.scalar .string (.strL k), v)]
  | (k1, v1) :: tl =>
    if goStrKey k1 == k then (.scalar .string (.strL k), v) :: tl
    else (k1, v1) :: setMapIndex tl k v

/-- `destValue.Set(pv)` at the end of `fromSimple`: boxing into an (empty)
interface destination always succeeds; otherwise the value's type must agree
with the destination's (assignability beyond type identity is out of model);
`Set` of an invalid `reflect.Value` panics. -/
def goValSet (pv : Option GoVal) (inner : GoVal) : Run GoVal :=
  match pv with
  | none => .error (.crash "reflect: Set of invalid Value")
  | some v =>
    match inner with
    | .iface _ => .ok (.iface (some v))
    | _ =>
      if goTypeOf v = goTypeOf inner then .ok v
      else .error (.crash "reflect: Set with mismatched type")

/-- `fromSimple`: resolve indirections, then assign the carried value. -/
def fromSimple (fuel : Nat) (pv : Option GoVal) (destValue : GoVal) : Run GoVal :=
  match makeValue fuel destValue with
  | .error err => .error err
  | .ok (inner, ctx) =>
    match goValSet pv inner with
    | .error err => .error err
    | .ok r => .ok (rebuild ctx r)

/-- `destValue.SetLen(i)`: only slices support it. -/
def goSetLen (v : GoVal) (n : Nat) : Run GoVal :=
  match v with
  | .slice ety (some es) => .ok (.slice ety (some (es.take n)))
  | _ => .error (.crash "reflect: SetLen on invalid kind")

/-- The zero-filling loop for an array destination longer than the source:
positions from `i` on are overwritten with the element type's zero value. -/
def zeroFillFrom (ety : GoType) (vals : List GoVal) (i : Nat) : List GoVal :=
  vals.take i ++ List.replicate (vals.length - i) (zeroVal ety)

/-- Pending work of one step of the materializer: `node` is
`fromMiddleValue` for one node and destination, `sliceNode`/`mapNode` are
`fromSlice`/`fromMap`, the loop tasks carry their cursor and running state,
and `setPath`/`setField` are the `subValue` walk of `fromMapToStruct`. -/
inductive MatTask where
  | node (p : MiddleValue) (destValue : GoVal)
  | sliceNode (p : MiddleValue) (destValue : GoVal)
  | mapNode (p : MiddleValue) (destValue : GoVal)
  | seqLoop (first i remaining : Nat) (inner : GoVal)
  | updIndex (first i : Nat) (inner : GoVal)
  | mapLoop (p : MiddleValue) (kt vt : GoType) (i remaining : Nat)
      (entries : List (GoVal × GoVal))
  | structLoop (p : MiddleValue) (fields : structFields) (i remaining : Nat)
      (destValue : GoVal)
  | setPath (e : MiddleValue) (v : GoVal) (idx : List Nat)
  | setField (e : MiddleValue) (v : GoVal) (j : Nat) (rest : List Nat)

/-- The materializer (`fromMiddleValue`, `fromSlice`, `fromMap`,
`fromMapToMap`, `fromMapToStruct`) as one fuel-recursive step function.  The
destination is threaded functionally: the result is the updated destination
value (Go mutates it in place through `reflect`).

* `node`: a Null node leaves the destination untouched; a Scalar node runs
  `fromSimple`; List/Keyed nodes dispatch to `sliceNode`/`mapNode`.
* `sliceNode` (= `fromSlice`): resolve indirections; a dynamic destination
  receives a fresh boxed `[]interface{}`; a slice destination is replaced by
  `reflect.MakeSlice` of the node's child count; then each source position
  is materialized into the positional slot while `i < destValue.Len()`
  (`Len` panics for non-measurable kinds, re-read every iteration and once
  after the loop); a longer array destination is zero-filled, any other
  longer destination hits `SetLen` (panics unless a slice).
* `mapNode` (= `fromMap`): resolve indirections; a dynamic destination
  receives a fresh boxed `map[string]interface{}`; a string-keyed map
  destination is allocated when nil and filled by `mapLoop`
  (= `fromMapToMap`); a struct destination is filled by `structLoop`
  (= `fromMapToStruct`); anything else is silently left unchanged.
* `mapLoop`: for every reserved child, materialize into a fresh zero element
  of the map's value type and insert it with `SetMapIndex`.  NOTE (faithful
  to the source): the key used is `reflect.ValueOf(p.Name)` — the name of
  the Keyed node itself, not the name of the child being materialized.
* `structLoop`: children whose name matches no destination field are
  dropped; a match is materialized at the end of the field's access path
  via `setPath`/`setField`, which write through (allocating) at most one
  pointer level per path component (`CanSet` holds for every location the
  walk reaches in this model). -/
def matRun : Nat → MiddleValueList → MatTask → Run GoVal
  | 0, _, _ => .error .fuelOut
  | fuel + 1, l, .node p destValue =>
    match p.type with
    | .NilValueType => .ok destValue
    | .ValueValueType => fromSimple fuel p.value destValue
    | .SliceValueType => matRun fuel l (.sliceNode p destValue)
    | .MapValueType => matRun fuel l (.mapNode p destValue)
  | fuel + 1, l, .sliceNode p destValue =>
    let data := if p.length > 0 then l.nodes p.first p.length else []
    match makeValue fuel destValue with
    | .error err => .error err
    | .ok (inner, ctx) =>
      match inner with
      | .iface _ =>
        match ifaceRun fuel l (.arr data []) with
        | .error err => .error err
        | .ok ro => .ok (rebuild ctx (.iface ro))
      | _ =>
        let n := data.length
        let inner1 :=
          match inner with
          | .slice ety _ => .slice ety (some (List.replicate n (zeroVal ety)))
          | x => x
        match matRun fuel l (.seqLoop p.first 0 n inner1) with
        | .error err => .error err
        | .ok inner2 =>
          match goLen inner2 with
          | .error err => .error err
          | .ok len =>
            if n < len then
              match inner2 with
              | .arrayV ety vals => .ok (rebuild ctx (.arrayV ety (zeroFillFrom ety vals n)))
              | _ =>
                match goSetLen inner2 n with
                | .error err => .error err
                | .ok inner3 => .ok (rebuild ctx inner3)
            else .ok (rebuild ctx inner2)
  | fuel + 1, l, .mapNode p destValue =>
    match makeValue fuel destValue with
    | .error err => .error err
    | .ok (inner, ctx) =>
      match inner with
      | .iface _ =>
        let data := if p.length > 0 then l.nodes p.first p.length else []
        match ifaceRun fuel l (.obj data []) with
        | .error err => .error err
        | .ok ro => .ok (rebuild ctx (.iface ro))
      | .mapV kt vt entries =>
        if !(isStringKind kt) then .ok (rebuild ctx inner)
        else
          match matRun fuel l (.mapLoop p kt vt 0 p.length (entries.getD [])) with
          | .error err => .error err
          | .ok mv => .ok (rebuild ctx mv)
      | .structV fs vals =>
        match matRun fuel l
            (.structLoop p (cachedTypeFields (.structT fs)) 0 p.length (.structV fs vals)) with
        | .error err => .error err
        | .ok sv => .ok (rebuild ctx sv)
      | _ => .ok (rebuild ctx inner)
  | fuel + 1, l, .seqLoop first i remaining inner =>
    match remaining with
    | 0 => .ok inner
    | r + 1 =>
      match goLen inner with
      | .error err => .error err
      | .ok len =>
        if i < len then
          match matRun fuel l (.updIndex first i inner) with
          | .error err => .error err
          | .ok inner1 => matRun fuel l (.seqLoop first (i + 1) r inner1)
        else matRun fuel l (.seqLoop first (i + 1) r inner)
  | fuel + 1, l, .updIndex first i inner =>
    match inner with
    | .slice ety (some es) =>
      match es.get? i with
      | some ev =>
        match matRun fuel l (.node (l.get (first + i)) ev) with
        | .error err => .error err
        | .ok ev1 => .ok (.slice ety (some (es.set i ev1)))
      | none => .error (.crash "reflect: index out of range")
    | .arrayV ety vs =>
      match vs.get? i with
      | some ev =>
        match matRun fuel l (.node (l.get (first + i)) ev) with
        | .error err => .error err
        | .ok ev1 => .ok (.arrayV ety (vs.set i ev1))
      | none => .error (.crash "reflect: index out of range")
    | _ => .error (.crash "reflect: Index on invalid kind")
  | fuel + 1, l, .mapLoop p kt vt i remaining entries =>
    match remaining with
    | 0 => .ok (.mapV kt vt (some entries))
    | r + 1 =>
      match matRun fuel l (.node (l.get (p.first + i)) (zeroVal vt)) with
      | .error err => .error err
      | .ok ev => matRun fuel l (.mapLoop p kt vt (i + 1) r (setMapIndex entries p.name ev))
  | fuel + 1, l, .structLoop p fields i remaining destValue =>
    match remaining with
    | 0 => .ok destValue
    | r + 1 =>
      let e := l.get (p.first + i)
      match fields.byExactName e.name with
      | none => matRun fuel l (.structLoop p fields (i + 1) r destValue)
      | some f =>
        match matRun fuel l (.setPath e destValue f.index) with
        | .error err => .error err
        | .ok dv => matRun fuel l (.structLoop p fields (i + 1) r dv)
  | fuel + 1, l, .setPath e v idx =>
    match idx with
    | [] => matRun fuel l (.node e v)
    | j :: rest =>
      match v with
      | .ptr ty pointee =>
        match matRun fuel l (.setField e (pointee.getD (zeroVal ty)) j rest) with
        | .error err => .error err
        | .ok inner => .ok (.ptr ty (some inner))
      | _ => matRun fuel l (.setField e v j rest)
  | fuel + 1, l, .setField e v j rest =>
    match v with
    | .structV fs vals =>
      match vals.get? j with
      | some sub =>
        match matRun fuel l (.setPath e sub rest) with
        | .error err => .error err
        | .ok sub1 => .ok (.structV fs (vals.set j sub1))
      | none => .error (.crash "reflect: Field index out of range")
    | _ => .error (.crash "reflect: Field of non-struct value")

/-- `fromMiddleValue(l, p, destValue)`. -/
def fromMiddleValue (fuel : Nat) (l : MiddleValueList) (p : MiddleValue)
    (destValue : GoVal) : Run GoVal :=
  matRun fuel l (.node p destValue)

/-- `fromSlice(l, p, destValue)`. -/
def fromSlice (fuel : Nat) (l : MiddleValueList) (p : MiddleValue)
    (destValue : GoVal) : Run GoVal :=
  matRun fuel l (.sliceNode p destValue)

/-- `fromMap(l, p, destValue)`. -/
def fromMap (fuel : Nat) (l : MiddleValueList) (p : MiddleValue)
    (destValue : GoVal) : Run GoVal :=
  matRun fuel l (.mapNode p destValue)

/-- `fromMapToMap(l, p, destValue, dstType)` on the entries of a string-keyed
map destination of value type `vt`. -/
def fromMapToMap (fuel : Nat) (l : MiddleValueList) (p : MiddleValue) (kt vt : GoType)
    (entries : List (GoVal × GoVal)) : Run GoVal :=
  matRun fuel l (.mapLoop p kt vt 0 p.length entries)

/-- `fromMapToStruct(l, p, destValue, dstType)`. -/
def fromMapToStruct (fuel : Nat) (l : MiddleValueList) (p : MiddleValue)
    (destValue : GoVal) : Run GoVal :=
  matRun fuel l (.structLoop p (cachedTypeFields (goTypeOf destValue)) 0 p.length destValue)

/-! ## `fastEncoding.Convert` -/

/-- The error taxonomy of `Convert` (payload of the
`json.InvalidUnmarshalError` omitted). -/
inductive ConvErr where
  | InvalidUnmarshalError
deriving DecidableEq, Repr

/-- `(e *fastEncoding) Convert(src, dest)`.  `src`/`dest` are `any`: `none`
is the untyped nil interface (an invalid `reflect.Value`).  The result pairs
the returned error with the destination as seen by the caller after the call
(Go mutates it through the passed pointer).  The pool is modelled by the
explicit `pooled` argument handed to `newMiddleValueList`. -/
def fastEncoding.Convert (fuel : Nat) (src dest : Option GoVal)
    (pooled : Option MiddleValueList) : Run (Option ConvErr × Option GoVal) :=
  match src with
  | none => .ok (none, dest)
  | some sv =>
    match goIsNil sv with
    | .error err => .error err
    | .ok true => .ok (none, dest)
    | .ok false =>
      match dest with
      | some (.ptr ty (some dv)) =>
        let l := newMiddleValueList pooled
        match reflectValue fuel l 0 sv with
        | .error err => .error err
        | .ok l1 =>
          match fromMiddleValue fuel l1 (l1.get 0) (.ptr ty (some dv)) with
          | .error err => .error err
          | .ok dv1 => .ok (none, some dv1)
      | _ => .ok (some .InvalidUnmarshalError, dest)

/-! ## Concrete types and values used by the verification theorems -/

def strT : GoType := .scalar .string
def intT : GoType := .scalar .int
def strV (s : String) : GoVal := .scalar .string (.strL s)
def intV (n : Int) : GoVal := .scalar .int (.intL n)
def mapSIty : GoType := .mapT strT intT
def mapSI (es : Option (List (GoVal × GoVal))) : GoVal := .mapV strT intT es

/-- A source that is absent (untyped nil) or a nil interface / pointer /
map / slice — the sources the specification calls absent or empty. -/
def absentOrNilSource : Option GoVal → Bool
  | none => true
  | some (.ptr _ p) => p.isNone
  | some (.mapV _ _ e) => e.isNone
  | some (.slice _ e) => e.isNone
  | some _ => false

/-- The struct type `struct { B int; A int }` of the C5 counterexample. -/
def tBA : GoType :=
  .structT (.cons (.mk "B" "" false true intT) (.cons (.mk "A" "" false true intT) .nil))

/-- The struct type `struct { A int json:"B"; B int }`: two fields with
effective name `"B"` at equal (top-level) depth, exactly one of them
tagged. -/
def tC6 : GoType :=
  .structT (.cons (.mk "A" "B" false true intT) (.cons (.mk "B" "" false true intT) .nil))

/-! ## Claim theorems -/

/-- C1: the claim states that each child of a Keyed arena node materialized
into a string-keyed mapping is inserted under that child's own key.  The
code (`fromMapToMap`) instead takes `keyValue := reflect.ValueOf(p.Name)` —
the Keyed node's own name — for every child: converting the source map
`{"a": 1}` into a `map[string]int` destination yields an entry under `""`
(the root node has the empty name) and nothing under `"a"`. -/
theorem C1_fromMapToMap_keys_children_by_parent_name :
    fastEncoding.Convert 30 (some (mapSI (some [(strV "a", intV 1)])))
      (some (.ptr mapSIty (some (mapSI none)))) none
    = .ok (none, some (.ptr mapSIty (some (mapSI (some [(strV "", intV 1)])))))
    ∧ ("" : String) ≠ "a" :=
  ⟨rfl, by decide⟩

/-- C2: the claim states that `fastEncoding.Convert` terminates normally and
never panics for any source, explicitly including scalar sources.  The
source-emptiness guard calls `srcValue.IsNil()` without checking the kind,
and `reflect.Value.IsNil` panics for non-nillable kinds: `Convert(5, &d)`
panics before looking at the destination. -/
theorem C2_convert_panics_on_scalar_source :
    fastEncoding.Convert 30 (some (intV 5)) (some (.ptr intT (some (intV 0)))) none
    = .error (.crash "reflect: IsNil on non-nillable value") := rfl

/-- C3: the claim states the round trip `Convert(V, &d)` leaves `d` deeply
equal to `V` for maps among other types.  For the map
`V = {"a": 1, "b": 2}`, both children are inserted under the root node's
empty name, so `d` ends up the one-entry map `{"": 2}`, which is not deeply
equal to `V` (the entry counts already differ). -/
theorem C3_map_round_trip_fails :
    fastEncoding.Convert 30 (some (mapSI (some [(strV "a", intV 1), (strV "b", intV 2)])))
      (some (.ptr mapSIty (some (mapSI none)))) none
    = .ok (none, some (.ptr mapSIty (some (mapSI (some [(strV "", intV 2)])))))
    ∧ [(strV "", intV 2)].length ≠ [(strV "a", intV 1), (strV "b", intV 2)].length :=
  ⟨rfl, by decide⟩

/-- C4: the claim states that for every input other than an invalid
destination `Convert` returns success, including arbitrary structural
mismatches.  Materializing a non-empty List node into an `int` destination
evaluates `destValue.Len()`, which panics for non-measurable kinds:
`Convert([]int{1}, &d)` with `d` an `int` panics instead of returning. -/
theorem C4_convert_panics_on_slice_to_int :
    fastEncoding.Convert 30 (some (.slice intT (some [intV 1])))
      (some (.ptr intT (some (intV 0)))) none
    = .error (.crash "reflect: Len on invalid kind") := rfl

/-- C8: `Convert` with an absent source (untyped nil) or a nil
pointer/map/slice source returns success immediately and hands back the
destination untouched, whatever the destination is (even an invalid one)
and with no fuel consumed. -/
theorem C8_nil_source_noop (fuel : Nat) (src dest : Option GoVal)
    (pooled : Option MiddleValueList) (h : absentOrNilSource src = true) :
    fastEncoding.Convert fuel src dest pooled = .ok (none, dest) := by
  cases src with
  | none => rfl
  | some v =>
    cases v with
    | scalar k lit => simp [absentOrNilSource] at h
    | ptr e p =>
      cases p with
      | none => rfl
      | some _ => simp [absentOrNilSource] at h
    | iface c => simp [absentOrNilSource] at h
    | slice e es =>
      cases es with
      | none => rfl
      | some _ => simp [absentOrNilSource] at h
    | arrayV e vs => simp [absentOrNilSource] at h
    | mapV k e es =>
      cases es with
      | none => rfl
      | some _ => simp [absentOrNilSource] at h
    | structV fs vs => simp [absentOrNilSource] at h
    | otherV t b => simp [absentOrNilSource] at h

/-- Witness for C8 at a concrete input: a nil `*int` source with a live
`*int` destination holding 7 leaves the destination bytes untouched. -/
theorem C8_nil_source_noop_witness :
    absentOrNilSource (some (.ptr intT none)) = true
    ∧ fastEncoding.Convert 0 (some (.ptr intT none)) (some (.ptr intT (some (intV 7)))) none
      = .ok (none, some (.ptr intT (some (intV 7)))) :=
  ⟨rfl, C8_nil_source_noop 0 (some (.ptr intT none)) (some (.ptr intT (some (intV 7)))) none rfl⟩

/-- C9: the claim states that after `Reset` no node value of the previous
conversion remains anywhere in the arena's backing storage.  Encoding the
map `{"a": 7}` fills node 1 with a reference to the source value `7`;
`Reset` zeroes the root and truncates the length to 1, but `b.List[:1]`
keeps the backing array, so the stale node — name `"a"` and the stored
`reflect.Value` of the previous source — survives at index 1 beyond the
length, to be handed out again at the next pool checkout. -/
theorem C9_reset_leaves_stale_node_beyond_length :
    reflectValue 30 (newMiddleValueList none) 0 (mapSI (some [(strV "a", intV 7)]))
      = .ok ⟨[⟨.MapValueType, "", none, 1, 1⟩, ⟨.ValueValueType, "a", some (intV 7), 0, 0⟩], 2⟩
    ∧ MiddleValueList.Reset
        ⟨[⟨.MapValueType, "", none, 1, 1⟩, ⟨.ValueValueType, "a", some (intV 7), 0, 0⟩], 2⟩
      = ⟨[⟨.NilValueType, "", none, 0, 0⟩, ⟨.ValueValueType, "a", some (intV 7), 0, 0⟩], 1⟩
    ∧ (⟨.ValueValueType, "a", some (intV 7), 0, 0⟩ : MiddleValue).value ≠ none :=
  ⟨rfl, rfl, by simp⟩

/-- C10: materializing a Keyed node into a string-keyed map destination that
is currently nil replaces it with a freshly allocated map even with zero
children: converting a non-nil empty source map (of any key and value type)
into a nil `map[string]W` destination yields a non-nil empty map — the
destination is mutated although no entries are copied.  Holds for every
sufficient fuel. -/
theorem C10_empty_map_allocates_fresh_destination (k : Nat) (kt vt wt : GoType) :
    fastEncoding.Convert (k + 4) (some (.mapV kt vt (some [])))
      (some (.ptr (.mapT strT wt) (some (.mapV strT wt none)))) none
    = .ok (none, some (.ptr (.mapT strT wt) (some (.mapV strT wt (some []))))) := by
  simp [fastEncoding.Convert, goIsNil, newMiddleValueList, reflectValue, encodeRun,
    MiddleValueList.get, MiddleValueList.set, fromMiddleValue, matRun, makeValue,
    isStringKind, rebuild, strT]

/-! ## Helper lemmas about loops over reserved children -/

theorem encodeRun_mapEntries_all_invalid (l : MiddleValueList) (endIdx : Nat)
    (es : List (GoVal × GoVal)) :
    ∀ (i fuel : Nat), (∀ e ∈ es, (validMapKey e.1).2 = false) → es.length < fuel →
      encodeRun fuel l (.mapEntries endIdx i es) = .ok l := by
  induction es with
  | nil =>
    intro i fuel _ hf
    cases fuel with
    | zero => simp at hf
    | succ f => rfl
  | cons e tl ih =>
    intro i fuel hinv hf
    cases fuel with
    | zero => simp at hf
    | succ f =>
      obtain ⟨ek, ev⟩ := e
      have he : (validMapKey ek).2 = false := hinv (ek, ev) (by simp)
      simp only [encodeRun, he, Bool.not_false, if_true]
      exact ih i f (fun e h => hinv e (List.mem_cons_of_mem _ h))
        (by simpa using Nat.lt_of_succ_lt_succ (by simpa using hf))

theorem pushN_from (root : MiddleValue) :
    ∀ (n j : Nat), MiddleValueList.pushN ⟨root :: List.replicate j {}, j + 1⟩ n
      = ⟨root :: List.replicate (j + n) {}, j + n + 1⟩ := by
  intro n
  induction n with
  | zero => intro j; simp [MiddleValueList.pushN]
  | succ m ih =>
    intro j
    show MiddleValueList.pushN (MiddleValueList.push _ {}) m = _
    have hp : MiddleValueList.push (⟨root :: List.replicate j {}, j + 1⟩ : MiddleValueList) {}
        = ⟨root :: List.replicate (j + 1) {}, j + 2⟩ := by
      simp [MiddleValueList.push, List.replicate_succ']
    rw [hp]
    rw [ih (j + 1)]
    have h2 : j + 1 + m = j + (m + 1) := by omega
    rw [h2]

theorem get_root_replicate (root : MiddleValue) (m i : Nat) :
    MiddleValueList.get ⟨root :: List.replicate m {}, m + 1⟩ (1 + i) = {} := by
  simp only [MiddleValueList.get, List.getD_eq_getElem?_getD]
  have h1 : (1 + i) = i + 1 := by omega
  rw [h1]
  simp only [List.getElem?_cons_succ]
  by_cases h : i < m
  · simp [List.getElem?_replicate, h]
  · rw [List.getElem?_eq_none (by simpa using h)]
    rfl

theorem nodes_root_replicate (root : MiddleValue) (m n : Nat) :
    MiddleValueList.nodes ⟨root :: List.replicate m {}, m + 1⟩ 1 n = List.replicate n {} := by
  simp only [MiddleValueList.nodes]
  rw [List.eq_replicate_iff]
  refine ⟨by simp, ?_⟩
  intro b hb
  obtain ⟨i, hi, rfl⟩ := List.mem_map.mp hb
  exact get_root_replicate root m i

theorem mapUpsert_idem {α : Type} (acc : List (String × α)) (kk : String) (v w : α) :
    mapUpsert (mapUpsert acc kk v) kk w = mapUpsert acc kk w := by
  induction acc with
  | nil => simp [mapUpsert]
  | cons h tl ih =>
    obtain ⟨k1, v1⟩ := h
    by_cases hk : k1 == kk
    · simp [mapUpsert, hk]
    · simp only [mapUpsert, hk, Bool.false_eq_true, if_false]
      rw [ih]

theorem ifaceRun_val_zeroNode (l : MiddleValueList) (fuel : Nat) (hf : 0 < fuel) :
    ifaceRun fuel l (.val {}) = .ok none := by
  cases fuel with
  | zero => omega
  | succ f => rfl

theorem ifaceRun_obj_replicate (l : MiddleValueList) :
    ∀ (n : Nat) (acc : List (String × Option GoVal)) (fuel : Nat), n < fuel →
      ifaceRun fuel l (.obj (List.replicate n {}) acc)
        = .ok (some (boxObject (if n = 0 then acc else mapUpsert acc "" none))) := by
  intro n
  induction n with
  | zero =>
    intro acc fuel hf
    cases fuel with
    | zero => omega
    | succ f => rfl
  | succ m ih =>
    intro acc fuel hf
    cases fuel with
    | zero => omega
    | succ f =>
      rw [List.replicate_succ]
      have hv : ifaceRun f l (.val ({} : MiddleValue)) = .ok none :=
        ifaceRun_val_zeroNode l f (by omega)
      simp only [ifaceRun, hv]
      rw [ih (mapUpsert acc "" none) f (by omega)]
      by_cases hm : m = 0
      · simp [hm]
      · simp [hm, mapUpsert_idem]

/-- C7: the claim states that entries whose key is not a plain string
contribute no named child and that the materialized dynamic destination
contains exactly the string-keyed entries and nothing for the skipped ones.
Converting `map[int]int{1: 2}` into an `interface{}` destination yields the
boxed map `{"": nil}` — the skipped entry's reserved child survives as an
unnamed Null child and produces an entry under the empty key, so the
destination is not the empty map the claim predicts. -/
theorem C7_skipped_entry_reaches_dynamic_destination :
    fastEncoding.Convert 30 (some (.mapV intT intT (some [(intV 1, intV 2)])))
      (some (.ptr .iface (some (.iface none)))) none
    = .ok (none, some (.ptr .iface (some (.iface (some (boxObject [("", none)]))))))
    ∧ [("", (none : Option GoVal))] ≠ [] :=
  ⟨rfl, by simp⟩

/-! ## Order lemmas for the sort comparators -/

theorem byIndexLess_asymm : ∀ a b : List Nat, byIndexLess a b = true → byIndexLess b a = false := by
  intro a
  induction a with
  | nil =>
    intro b h
    cases b with
    | nil => simp [byIndexLess] at h
    | cons y ys => simp [byIndexLess]
  | cons x xs ih =>
    intro b h
    cases b with
    | nil => simp [byIndexLess] at h
    | cons y ys =>
      by_cases hxy : x = y
      · subst hxy
        simp only [byIndexLess] at h ⊢
        rw [if_neg (by omega : ¬ x ≠ x)] at h
        rw [if_neg (by omega : ¬ x ≠ x)]
        exact ih ys h
      · simp only [byIndexLess] at h ⊢
        rw [if_pos (by omega : x ≠ y)] at h
        rw [if_pos (by omega : y ≠ x)]
        simp at h ⊢
        omega

theorem byIndexLess_conn : ∀ a b : List Nat,
    byIndexLess a b = false → byIndexLess b a = false → a = b := by
  intro a
  induction a with
  | nil =>
    intro b h1 _
    cases b with
    | nil => rfl
    | cons y ys => simp [byIndexLess] at h1
  | cons x xs ih =>
    intro b h1 h2
    cases b with
    | nil => simp [byIndexLess] at h2
    | cons y ys =>
      by_cases hxy : x = y
      · subst hxy
        simp only [byIndexLess] at h1 h2
        rw [if_neg (by omega : ¬ x ≠ x)] at h1
        rw [if_neg (by omega : ¬ x ≠ x)] at h2
        rw [ih ys h1 h2]
      · simp only [byIndexLess] at h1 h2
        rw [if_pos (by omega : x ≠ y)] at h1
        rw [if_pos (by omega : y ≠ x)] at h2
        simp at h1 h2
        omega

theorem byIndexLess_trans : ∀ a b c : List Nat,
    byIndexLess a b = true → byIndexLess b c = true → byIndexLess a c = true := by
  intro a
  induction a with
  | nil =>
    intro b c h1 h2
    cases b with
    | nil => simp [byIndexLess] at h1
    | cons y ys =>
      cases c with
      | nil => simp [byIndexLess] at h2
      | cons z zs => simp [byIndexLess]
  | cons x xs ih =>
    intro b c h1 h2
    cases b with
    | nil => simp [byIndexLess] at h1
    | cons y ys =>
      cases c with
      | nil => simp [byIndexLess] at h2
      | cons z zs =>
        by_cases hxy : x = y <;> by_cases hyz : y = z
        · subst hxy; subst hyz
          simp only [byIndexLess] at h1 h2 ⊢
          rw [if_neg (by omega : ¬ x ≠ x)] at h1
          rw [if_neg (by omega : ¬ x ≠ x)] at h2
          rw [if_neg (by omega : ¬ x ≠ x)]
          exact ih ys zs h1 h2
        · subst hxy
          simp only [byIndexLess] at h1 h2 ⊢
          rw [if_neg (by omega : ¬ x ≠ x)] at h1
          rw [if_pos (by omega : x ≠ z)] at h2
          rw [if_pos (by omega : x ≠ z)]
          exact h2
        · subst hyz
          simp only [byIndexLess] at h1 h2 ⊢
          rw [if_pos (by omega : x ≠ y)] at h1
          rw [if_neg (by omega : ¬ y ≠ y)] at h2
          rw [if_pos (by omega : x ≠ y)]
          exact h1
        · simp only [byIndexLess] at h1 h2 ⊢
          rw [if_pos (by omega : x ≠ y)] at h1
          rw [if_pos (by omega : y ≠ z)] at h2
          simp at h1 h2
          rw [if_pos (by omega : x ≠ z)]
          simp
          omega

theorem byIndexLeR_total : ∀ a b : field, byIndexLeR a b ∨ byIndexLeR b a := by
  intro a b
  by_cases h1 : byIndexLess b.index a.index = true
  · right
    unfold byIndexLeR
    exact byIndexLess_asymm _ _ h1
  · left
    unfold byIndexLeR
    simpa using h1

theorem byIndexLeR_trans : ∀ a b c : field, byIndexLeR a b → byIndexLeR b c → byIndexLeR a c := by
  intro a b c h1 h2
  unfold byIndexLeR at h1 h2 ⊢
  by_cases hca : byIndexLess c.index a.index = true
  · by_cases hab : byIndexLess a.index b.index = true
    · have := byIndexLess_trans _ _ _ hca hab
      rw [this] at h2
      simp at h2
    · have heq := byIndexLess_conn _ _ (by simpa using hab) h1
      rw [← heq] at h2
      rw [h2] at hca
      simp at hca
  · simpa using hca

/-- C5 counterexample: for the struct type with declared fields `B` then
`A`, the published list is `[B, A]` — not sorted by effective name. -/
theorem C5_list_not_sorted_by_name :
    ((typeFields tBA).list.map (fun f => f.name) = ["B", "A"])
    ∧ ¬ List.Sorted (fun a b : String => a ≤ b)
        ((typeFields tBA).list.map (fun f => f.name)) := by
  refine ⟨rfl, ?_⟩
  rw [show (typeFields tBA).list.map (fun f => f.name) = ["B", "A"] from rfl]
  intro h
  have h1 : ("B" : String) ≤ "A" := List.rel_of_sorted_cons h _ (by simp)
  have h2 : ("A" : String) < "B" := String.lt_iff_toList_lt.mpr (List.Lex.rel (by decide))
  exact absurd h1 (not_le.mpr h2)

/-- C5 amended: the published visible-field list is sorted by the
`byIndex` order on access-path index sequences (the final
`sort.Sort(byIndex(fields))`), not by name. -/
theorem C5_amended_list_sorted_by_index (t : GoType) :
    List.Sorted byIndexLeR (typeFields t).list := by
  haveI : IsTotal field byIndexLeR := ⟨byIndexLeR_total⟩
  haveI : IsTrans field byIndexLeR := ⟨byIndexLeR_trans⟩
  exact List.sorted_insertionSort byIndexLeR _

theorem charListLt_irrefl : ∀ a : List Char, charListLt a a = false := by
  intro a
  induction a with
  | nil => rfl
  | cons c cs ih =>
    simp only [charListLt]
    rw [if_neg (by simp)]
    exact ih

theorem charListLt_asymm : ∀ a b : List Char,
    charListLt a b = true → charListLt b a = false := by
  intro a
  induction a with
  | nil =>
    intro b h
    cases b with
    | nil => simp [charListLt] at h
    | cons d ds => simp [charListLt]
  | cons c cs ih =>
    intro b h
    cases b with
    | nil => simp [charListLt] at h
    | cons d ds =>
      by_cases hcd : c = d
      · subst hcd
        simp only [charListLt] at h ⊢
        rw [if_neg (by simp)] at h
        rw [if_neg (by simp)]
        exact ih ds h
      · simp only [charListLt] at h ⊢
        rw [if_pos (by simpa using hcd)] at h
        rw [if_pos (by simp; exact fun hh => hcd hh.symm)]
        simp at h ⊢
        exact le_of_lt h

theorem charListLt_conn : ∀ a b : List Char,
    charListLt a b = false → charListLt b a = false → a = b := by
  intro a
  induction a with
  | nil =>
    intro b h1 _
    cases b with
    | nil => rfl
    | cons d ds => simp [charListLt] at h1
  | cons c cs ih =>
    intro b h1 h2
    cases b with
    | nil => simp [charListLt] at h2
    | cons d ds =>
      by_cases hcd : c = d
      · subst hcd
        simp only [charListLt] at h1 h2
        rw [if_neg (by simp)] at h1
        rw [if_neg (by simp)] at h2
        rw [ih ds h1 h2]
      · simp only [charListLt] at h1 h2
        rw [if_pos (by simpa using hcd)] at h1
        rw [if_pos (by simp; exact fun hh => hcd hh.symm)] at h2
        simp at h1 h2
        exact absurd (le_antisymm h2 h1) hcd

theorem charListLt_trans : ∀ a b c : List Char,
    charListLt a b = true → charListLt b c = true → charListLt a c = true := by
  intro a
  induction a with
  | nil =>
    intro b c h1 h2
    cases b with
    | nil => simp [charListLt] at h1
    | cons y ys =>
      cases c with
      | nil => simp [charListLt] at h2
      | cons z zs => simp [charListLt]
  | cons x xs ih =>
    intro b c h1 h2
    cases b with
    | nil => simp [charListLt] at h1
    | cons y ys =>
      cases c with
      | nil => simp [charListLt] at h2
      | cons z zs =>
        by_cases hxy : x = y <;> by_cases hyz : y = z
        · subst hxy; subst hyz
          simp only [charListLt] at h1 h2 ⊢
          rw [if_neg (by simp)] at h1
          rw [if_neg (by simp)] at h2
          rw [if_neg (by simp)]
          exact ih ys zs h1 h2
        · subst hxy
          simp only [charListLt] at h1 h2 ⊢
          rw [if_neg (by simp)] at h1
          rw [if_pos (by simpa using hyz)] at h2
          rw [if_pos (by simpa using hyz)]
          exact h2
        · subst hyz
          simp only [charListLt] at h1 h2 ⊢
          rw [if_pos (by simpa using hxy)] at h1
          rw [if_neg (by simp)] at h2
          rw [if_pos (by simpa using hxy)]
          exact h1
        · simp only [charListLt] at h1 h2 ⊢
          rw [if_pos (by simpa using hxy)] at h1
          rw [if_pos (by simpa using hyz)] at h2
          simp at h1 h2
          have hxz : x < z := lt_trans h1 h2
          rw [if_pos (by simp; exact fun hh => absurd hh (ne_of_lt hxz))]
          simpa using hxz

theorem strLt_irrefl (a : String) : strLt a a = false := charListLt_irrefl _

theorem strLt_asymm {a b : String} (h : strLt a b = true) : strLt b a = false :=
  charListLt_asymm _ _ h

theorem strLt_conn {a b : String} (h1 : strLt a b = false) (h2 : strLt b a = false) :
    a = b := by
  have h3 := charListLt_conn _ _ h1 h2
  cases a with
  | mk da =>
    cases b with
    | mk db =>
      simp only [String.toList] at h3
      rw [show da = db from h3]

theorem strLt_trans {a b c : String} (h1 : strLt a b = true) (h2 : strLt b c = true) :
    strLt a c = true :=
  charListLt_trans _ _ _ h1 h2

theorem byIndexLess_neg_trans (x y z : List Nat) (h1 : byIndexLess y x = false)
    (h2 : byIndexLess z y = false) : byIndexLess z x = false := by
  by_cases hzx : byIndexLess z x = true
  · by_cases hxy : byIndexLess x y = true
    · have h3 := byIndexLess_trans _ _ _ hzx hxy
      rw [h3] at h2
      simp at h2
    · have heq := byIndexLess_conn _ _ (by simpa using hxy) h1
      rw [← heq] at h2
      rw [h2] at hzx
      simp at hzx
  · simpa using hzx

theorem fieldLeR_name (a b : field) (h : fieldLeR a b) :
    a.name = b.name ∨ strLt a.name b.name = true := by
  unfold fieldLeR fieldLess at h
  by_cases hn : b.name = a.name
  · left; exact hn.symm
  · rw [if_pos (by simpa using hn)] at h
    right
    by_cases hab : strLt a.name b.name = true
    · exact hab
    · exact absurd (strLt_conn (by simpa using hab) h) (fun e => hn e.symm)

theorem fieldLeR_depth (a b : field) (h : fieldLeR a b) (hn : a.name = b.name) :
    a.index.length ≤ b.index.length := by
  unfold fieldLeR fieldLess at h
  rw [if_neg (by simp [hn])] at h
  by_cases hd : b.index.length = a.index.length
  · omega
  · rw [if_pos (by simpa using hd)] at h
    simp at h
    omega

theorem fieldLeR_tag (a b : field) (h : fieldLeR a b) (hn : a.name = b.name)
    (hd : a.index.length = b.index.length) (ht : b.tag = true) : a.tag = true := by
  unfold fieldLeR fieldLess at h
  rw [if_neg (by simp [hn])] at h
  rw [if_neg (by simp [hd])] at h
  by_cases htag : b.tag = a.tag
  · rw [← htag]
    exact ht
  · rw [if_pos (by simpa using htag)] at h
    rw [ht] at h
    simp at h

theorem fieldLeR_bil (a b : field) (h : fieldLeR a b) (hn : a.name = b.name)
    (hd : a.index.length = b.index.length) (htag : a.tag = b.tag) :
    byIndexLess b.index a.index = false := by
  unfold fieldLeR fieldLess at h
  rw [if_neg (by simp [hn])] at h
  rw [if_neg (by simp [hd])] at h
  rw [if_neg (by simp [htag])] at h
  exact h

theorem fieldLess_asymm (a b : field) (h : fieldLess a b = true) :
    fieldLess b a = false := by
  unfold fieldLess at h ⊢
  by_cases hn : a.name = b.name
  · rw [if_neg (by simp [hn])] at h
    rw [if_neg (by simp [hn])]
    by_cases hd : a.index.length = b.index.length
    · rw [if_neg (by simp [hd])] at h
      rw [if_neg (by simp [hd])]
      by_cases htag : a.tag = b.tag
      · rw [if_neg (by simp [htag])] at h
        rw [if_neg (by simp [htag])]
        exact byIndexLess_asymm _ _ h
      · rw [if_pos (by simpa using htag)] at h
        rw [if_pos (by simp; exact fun e => htag e.symm)]
        cases hB : b.tag
        · rfl
        · cases hA : a.tag
          · rw [hA] at h
            simp at h
          · exact absurd (hA.trans hB.symm) htag
    · rw [if_pos (by simpa using hd)] at h
      rw [if_pos (by simp; exact fun e => hd e.symm)]
      simp at h ⊢
      omega
  · rw [if_pos (by simpa using hn)] at h
    rw [if_pos (by simp; exact fun e => hn e.symm)]
    exact strLt_asymm h

theorem fieldLeR_total : ∀ a b : field, fieldLeR a b ∨ fieldLeR b a := by
  intro a b
  by_cases h : fieldLess b a = true
  · right
    unfold fieldLeR
    exact fieldLess_asymm _ _ h
  · left
    unfold fieldLeR
    simpa using h

theorem fieldLeR_trans : ∀ a b c : field, fieldLeR a b → fieldLeR b c → fieldLeR a c := by
  intro a b c h1 h2
  show fieldLess c a = false
  unfold fieldLess
  by_cases hca : c.name = a.name
  · have hb : b.name = a.name := by
      rcases fieldLeR_name a b h1 with hab | hab
      · exact hab.symm
      · rcases fieldLeR_name b c h2 with hbc | hbc
        · exfalso
          rw [hbc, hca] at hab
          rw [strLt_irrefl] at hab
          simp at hab
        · exfalso
          have h3 := strLt_trans hab hbc
          rw [hca] at h3
          rw [strLt_irrefl] at h3
          simp at h3
    rw [if_neg (by simp [hca])]
    have hd1 : a.index.length ≤ b.index.length := fieldLeR_depth a b h1 hb.symm
    have hd2 : b.index.length ≤ c.index.length := fieldLeR_depth b c h2 (by rw [hb, hca])
    by_cases hdca : c.index.length = a.index.length
    · rw [if_neg (by simp [hdca])]
      have hdab : a.index.length = b.index.length := by omega
      have hdbc : b.index.length = c.index.length := by omega
      by_cases htca : c.tag = a.tag
      · rw [if_neg (by simp [htca])]
        have htb : b.tag = a.tag := by
          cases hA : a.tag
          · cases hB : b.tag
            · rfl
            · exfalso
              have h4 := fieldLeR_tag a b h1 hb.symm hdab hB
              rw [hA] at h4
              simp at h4
          · exact fieldLeR_tag b c h2 (by rw [hb, hca]) hdbc (htca.trans hA)
        have hb1 := fieldLeR_bil a b h1 hb.symm hdab (by rw [htb])
        have hb2 := fieldLeR_bil b c h2 (by rw [hb, hca]) hdbc (by rw [htb, ← htca])
        exact byIndexLess_neg_trans _ _ _ hb1 hb2
      · rw [if_pos (by simpa using htca)]
        cases hC : c.tag
        · rfl
        · exfalso
          have hbt := fieldLeR_tag b c h2 (by rw [hb, hca]) hdbc hC
          have hat := fieldLeR_tag a b h1 hb.symm hdab hbt
          exact htca (by rw [hC, hat])
    · rw [if_pos (by simpa using hdca)]
      simp
      omega
  · rw [if_pos (by simpa using hca)]
    rcases fieldLeR_name a b h1 with hab | hab <;> rcases fieldLeR_name b c h2 with hbc | hbc
    · exact absurd ((hab.trans hbc).symm) hca
    · rw [← hab] at hbc
      exact strLt_asymm hbc
    · rw [hbc] at hab
      exact strLt_asymm hab
    · exact strLt_asymm (strLt_trans hab hbc)

theorem fieldLeR_name_ne (a b : field) (h : fieldLeR a b) (hne : a.name ≠ b.name) :
    strLt a.name b.name = true := by
  rcases fieldLeR_name a b h with he | hlt
  · exact absurd he hne
  · exact hlt

/-- In a sorted list headed by `f`, everything beyond the initial run of
`f.name` has a different name. -/
theorem dropWhile_name_ne (f : field) :
    ∀ (rest : List field), List.Pairwise fieldLeR (f :: rest) →
      ∀ g ∈ rest.dropWhile (fun x => x.name == f.name), g.name ≠ f.name := by
  intro rest
  induction rest with
  | nil => intro _ g hg; simp [List.dropWhile] at hg
  | cons r rs ih =>
    intro hsort g hg
    by_cases hr : (r.name == f.name) = true
    · simp only [List.dropWhile_cons] at hg
      rw [if_pos (by simpa using hr)] at hg
      have hsort2 : List.Pairwise fieldLeR (f :: rs) :=
        hsort.sublist (by
          refine List.Sublist.cons₂ f ?_
          exact List.sublist_cons_self r rs)
      exact ih hsort2 g hg
    · simp only [List.dropWhile_cons] at hg
      rw [if_neg (by simpa using hr)] at hg
      rcases List.mem_cons.mp hg with hgr | hgrs
      · subst hgr
        simpa using hr
      · have hfr : fieldLeR f r := (List.pairwise_cons.mp hsort).1 r (by simp)
        have hrg : fieldLeR r g :=
          (List.pairwise_cons.mp ((List.pairwise_cons.mp hsort).2)).1 g hgrs
        have hfrn : strLt f.name r.name = true :=
          fieldLeR_name_ne f r hfr (by simp at hr; exact fun e => hr e.symm)
        intro hgf
        rcases fieldLeR_name r g hrg with he | hlt
        · rw [he, hgf] at hfrn
          rw [strLt_irrefl] at hfrn
          simp at hfrn
        · have h3 := strLt_trans hfrn hlt
          rw [hgf] at h3
          rw [strLt_irrefl] at h3
          simp at h3

/-- The annihilation pass on a run of two or more yields either nothing or
the run's first element. -/
theorem dominantField_cons (f r1 : field) (rr : List field) :
    dominantField (f :: r1 :: rr) = none ∨ dominantField (f :: r1 :: rr) = some f := by
  by_cases hc : f.index.length = r1.index.length ∧ f.tag = r1.tag
  · left
    show (if f.index.length = r1.index.length ∧ f.tag = r1.tag
      then (none : Option field) else some f) = none
    rw [if_pos hc]
  · right
    show (if f.index.length = r1.index.length ∧ f.tag = r1.tag
      then (none : Option field) else some f) = some f
    rw [if_neg hc]

/-- In a sorted list headed by `f`, the elements named `f.name` are exactly
`f` followed by the initial run. -/
theorem sorted_filter_head_run (f : field) (rest : List field)
    (hsort : List.Pairwise fieldLeR (f :: rest)) :
    (f :: rest).filter (fun g => g.name == f.name)
      = f :: rest.takeWhile (fun g => g.name == f.name) := by
  rw [List.filter_cons_of_pos (by simp)]
  congr 1
  conv_lhs => rw [← List.takeWhile_append_dropWhile (fun g => g.name == f.name) rest]
  rw [List.filter_append]
  have hmem : ∀ a ∈ rest.takeWhile (fun g => g.name == f.name), (a.name == f.name) = true :=
    fun a ha => @List.mem_takeWhile_imp field (fun g => g.name == f.name) rest a ha
  have h1 : (rest.takeWhile (fun g => g.name == f.name)).filter
      (fun g => g.name == f.name) = rest.takeWhile (fun g => g.name == f.name) :=
    List.filter_eq_self.mpr hmem
  have h2 : (rest.dropWhile (fun g => g.name == f.name)).filter
      (fun g => g.name == f.name) = [] :=
    List.filter_eq_nil_iff.mpr (fun a ha => by
      simpa using dropWhile_name_ne f rest hsort a ha)
  rw [h1, h2, List.append_nil]

/-- In a sorted list headed by `f`, filtering for a name other than
`f.name` skips `f` and the whole initial run. -/
theorem sorted_filter_other (f : field) (rest : List field) (n : String)
    (hn : f.name ≠ n) :
    (f :: rest).filter (fun g => g.name == n)
      = (rest.dropWhile (fun g => g.name == f.name)).filter (fun g => g.name == n) := by
  rw [List.filter_cons_of_neg (by simpa using hn)]
  conv_lhs => rw [← List.takeWhile_append_dropWhile (fun g => g.name == f.name) rest]
  rw [List.filter_append]
  have hmem : ∀ a ∈ rest.takeWhile (fun g => g.name == f.name), (a.name == f.name) = true :=
    fun a ha => @List.mem_takeWhile_imp field (fun g => g.name == f.name) rest a ha
  have h1 : (rest.takeWhile (fun g => g.name == f.name)).filter
      (fun g => g.name == n) = [] :=
    List.filter_eq_nil_iff.mpr (fun a ha => by
      have h3 := hmem a ha
      simp at h3 ⊢
      rw [h3]
      exact hn)
  rw [h1, List.nil_append]

theorem dedupFieldsF_filter (n : String) :
    ∀ (fuel : Nat) (s : List field), s.length ≤ fuel → List.Pairwise fieldLeR s →
      (dedupFieldsF fuel s).filter (fun g => g.name == n)
      = (if (s.filter (fun g => g.name == n)).length ≤ 1
         then s.filter (fun g => g.name == n)
         else match dominantField (s.filter (fun g => g.name == n)) with
           | some dd => [dd]
           | none => []) := by
  intro fuel
  induction fuel with
  | zero =>
    intro s hlen hsort
    have hs : s = [] := List.length_eq_zero.mp (Nat.le_zero.mp hlen)
    subst hs
    simp [dedupFieldsF]
  | succ fu ih =>
    intro s hlen hsort
    cases s with
    | nil => simp [dedupFieldsF]
    | cons f rest =>
      have hstep : dedupFieldsF (fu + 1) (f :: rest)
          = (if (rest.takeWhile (fun g => g.name == f.name)).isEmpty then [f]
             else match dominantField (f :: rest.takeWhile (fun g => g.name == f.name)) with
               | some d => [d]
               | none => []) ++ dedupFieldsF fu (rest.dropWhile (fun g => g.name == f.name)) := rfl
      rw [hstep, List.filter_append]
      have hsub : List.Pairwise fieldLeR (rest.dropWhile (fun g => g.name == f.name)) :=
        List.Pairwise.sublist
          ((List.dropWhile_sublist _).trans (List.sublist_cons_self f rest)) hsort
      have hlen1 : (rest.dropWhile (fun g => g.name == f.name)).length ≤ fu := by
        have h4 := (List.dropWhile_sublist (fun g => g.name == f.name) (l := rest)).length_le
        simp only [List.length_cons] at hlen
        omega
      rw [ih _ hlen1 hsub]
      by_cases hn : f.name = n
      · subst hn
        have hre : (rest.dropWhile (fun g => g.name == f.name)).filter
            (fun g => g.name == f.name) = [] :=
          List.filter_eq_nil_iff.mpr (fun a ha => by
            simpa using dropWhile_name_ne f rest hsort a ha)
        rw [hre]
        rw [sorted_filter_head_run f rest hsort]
        simp only [List.length_nil]
        rw [if_pos (Nat.zero_le 1)]
        rw [List.append_nil]
        cases hrun : rest.takeWhile (fun g => g.name == f.name) with
        | nil =>
          rw [if_pos (show (List.isEmpty ([] : List field)) = true from rfl)]
          rw [List.filter_cons_of_pos (by simp), List.filter_nil]
          rw [if_pos (by simp)]
        | cons r1 rr =>
          rw [if_neg (show ¬(List.isEmpty (r1 :: rr)) = true from by simp)]
          rw [if_neg (show ¬((f :: r1 :: rr).length ≤ 1) from by
            simp only [List.length_cons]; omega)]
          rcases dominantField_cons f r1 rr with hd | hd
          · rw [hd]
            rfl
          · rw [hd]
            show List.filter (fun g => g.name == f.name) [f] = [f]
            rw [List.filter_cons_of_pos (by simp), List.filter_nil]
      · have hgf : (if (rest.takeWhile (fun g => g.name == f.name)).isEmpty then [f]
             else match dominantField (f :: rest.takeWhile (fun g => g.name == f.name)) with
               | some d => [d]
               | none => []).filter (fun g => g.name == n) = [] := by
          cases hrun : rest.takeWhile (fun g => g.name == f.name) with
          | nil =>
            rw [if_pos (show (List.isEmpty ([] : List field)) = true from rfl)]
            rw [List.filter_cons_of_neg (by simpa using hn), List.filter_nil]
          | cons r1 rr =>
            rw [if_neg (show ¬(List.isEmpty (r1 :: rr)) = true from by simp)]
            rcases dominantField_cons f r1 rr with hd | hd
            · rw [hd]
              rfl
            · rw [hd]
              show List.filter (fun g => g.name == n) [f] = []
              rw [List.filter_cons_of_neg (by simpa using hn), List.filter_nil]
        rw [hgf, List.nil_append]
        rw [sorted_filter_other f rest n hn]

theorem find?_of_filter_singleton (p : field → Bool) :
    ∀ (l : List field) (g : field), l.filter p = [g] → l.find? p = some g := by
  intro l
  induction l with
  | nil => intro g h; simp at h
  | cons a t ih =>
    intro g h
    by_cases hp : p a = true
    · rw [List.filter_cons_of_pos hp] at h
      rw [List.cons.injEq] at h
      rw [List.find?_cons_of_pos t hp, h.1]
    · rw [List.filter_cons_of_neg hp] at h
      rw [List.find?_cons_of_neg t hp]
      exact ih g h

theorem find?_of_filter_nil (p : field → Bool) (l : List field)
    (h : l.filter p = []) : l.find? p = none :=
  List.find?_eq_none.mpr (List.filter_eq_nil_iff.mp h)

/-- The annihilation decision for one name, over the sorted candidates of
that name: a unique tagged minimal-depth candidate wins; a tagged count
other than one annihilates the name. -/
theorem dominant_of_sorted_min (r : List field) (n : String) (d : Nat)
    (hrs : List.Pairwise fieldLeR r)
    (hname : ∀ f ∈ r, f.name = n)
    (hmin : ∀ f ∈ r, d ≤ f.index.length)
    (h2 : 2 ≤ (r.filter (fun x => x.index.length == d)).length) :
    (∀ g, r.filter (fun x => x.tag && x.index.length == d) = [g] →
        dominantField r = some g)
    ∧ ((r.filter (fun x => x.tag && x.index.length == d)).length ≠ 1 →
        dominantField r = none) := by
  cases r with
  | nil => simp at h2
  | cons r0 rtl =>
    cases rtl with
    | nil =>
      exfalso
      have hle := List.length_filter_le (fun x => x.index.length == d) [r0]
      simp only [List.length_cons, List.length_nil] at hle
      omega
    | cons r1 rt =>
      have hn0 : r0.name = n := hname r0 (by simp)
      have hn1 : r1.name = n := hname r1 (by simp)
      have h01 : fieldLeR r0 r1 := List.rel_of_pairwise_cons hrs (by simp)
      have hp1 : List.Pairwise fieldLeR (r1 :: rt) := (List.pairwise_cons.mp hrs).2
      have hd1 : r1.index.length = d := by
        by_contra hne
        have hgt : d < r1.index.length :=
          lt_of_le_of_ne (hmin r1 (by simp)) (fun e => hne e.symm)
        have htail : (r1 :: rt).filter (fun x => x.index.length == d) = [] := by
          apply List.filter_eq_nil_iff.mpr
          intro a ha
          rcases List.mem_cons.mp ha with h | h
          · rw [h]; simp; omega
          · have hle := fieldLeR_depth r1 a (List.rel_of_pairwise_cons hp1 h)
              (hn1.trans (hname a (by simp [h])).symm)
            simp
            omega
        have hsplit : (r0 :: r1 :: rt).filter (fun x => x.index.length == d)
            = if ((r0.index.length == d) = true)
              then r0 :: ((r1 :: rt).filter (fun x => x.index.length == d))
              else (r1 :: rt).filter (fun x => x.index.length == d) := List.filter_cons
        rw [hsplit, htail] at h2
        by_cases h0 : (r0.index.length == d) = true
        · rw [if_pos h0] at h2
          simp only [List.length_cons, List.length_nil] at h2
          omega
        · rw [if_neg h0] at h2
          simp only [List.length_nil] at h2
          omega
      have hd0 : r0.index.length = d := by
        have hle := fieldLeR_depth r0 r1 h01 (hn0.trans hn1.symm)
        have hge := hmin r0 (by simp)
        omega
      constructor
      · intro g hg
        by_cases ht0 : r0.tag = true
        · have hq0 : (r0.tag && (r0.index.length == d)) = true := by
            simp [ht0, hd0]
          rw [@List.filter_cons_of_pos field (fun x => x.tag && x.index.length == d)
            r0 (r1 :: rt) hq0] at hg
          rw [List.cons.injEq] at hg
          have ht1 : r1.tag = false := by
            by_contra h1
            simp only [Bool.not_eq_false] at h1
            have hm : r1 ∈ (r1 :: rt).filter (fun x => x.tag && x.index.length == d) :=
              List.mem_filter.mpr ⟨by simp, by simp [h1, hd1]⟩
            rw [hg.2] at hm
            simp at hm
          show (if r0.index.length = r1.index.length ∧ r0.tag = r1.tag
            then none else some r0) = some g
          rw [if_neg (by rw [ht0, ht1]; simp)]
          rw [hg.1]
        · exfalso
          have hgmem : g ∈ (r0 :: r1 :: rt).filter (fun x => x.tag && x.index.length == d) := by
            rw [hg]; simp
          have hgq := (List.mem_filter.mp hgmem).2
          have hgin := (List.mem_filter.mp hgmem).1
          simp only [Bool.and_eq_true, beq_iff_eq] at hgq
          have ht1 : r1.tag = false := by
            by_contra h1
            simp only [Bool.not_eq_false] at h1
            exact ht0 (fieldLeR_tag r0 r1 h01 (hn0.trans hn1.symm) (by omega) h1)
          rcases List.mem_cons.mp hgin with h | h
          · rw [h] at hgq; exact ht0 hgq.1
          rcases List.mem_cons.mp h with h' | h'
          · rw [h'] at hgq
            rw [ht1] at hgq
            exact Bool.false_ne_true hgq.1
          · have hrel := List.rel_of_pairwise_cons hp1 h'
            have hta := fieldLeR_tag r1 g hrel
              (hn1.trans (hname g (by simp [h'])).symm) (by omega) hgq.1
            rw [ht1] at hta
            exact Bool.false_ne_true hta
      · intro hno
        have hteq : r0.tag = r1.tag := by
          by_contra hne
          have ht0 : r0.tag = true := by
            cases h0 : r0.tag with
            | false =>
              cases h1 : r1.tag with
              | false => exact absurd (h0.trans h1.symm) hne
              | true =>
                have := fieldLeR_tag r0 r1 h01 (hn0.trans hn1.symm) (by omega) h1
                rw [h0] at this
                exact absurd this Bool.false_ne_true
            | true => rfl
          have ht1 : r1.tag = false := by
            cases h1 : r1.tag with
            | false => rfl
            | true => exact absurd (ht0.trans h1.symm) hne
          have htail : (r1 :: rt).filter (fun x => x.tag && x.index.length == d) = [] := by
            apply List.filter_eq_nil_iff.mpr
            intro a ha hq
            simp only [Bool.and_eq_true, beq_iff_eq] at hq
            rcases List.mem_cons.mp ha with h | h
            · rw [h] at hq
              rw [ht1] at hq
              exact Bool.false_ne_true hq.1
            · have hrel := List.rel_of_pairwise_cons hp1 h
              have hta := fieldLeR_tag r1 a hrel
                (hn1.trans (hname a (by simp [h])).symm) (by omega) hq.1
              rw [ht1] at hta
              exact Bool.false_ne_true hta
          have hall : (r0 :: r1 :: rt).filter (fun x => x.tag && x.index.length == d) = [r0] := by
            rw [List.filter_cons_of_pos (by simp [ht0, hd0]), htail]
          rw [hall] at hno
          simp at hno
        show (if r0.index.length = r1.index.length ∧ r0.tag = r1.tag
          then none else some r0) = none
        rw [if_pos ⟨by omega, hteq⟩]

/-- If the annihilation pass leaves exactly one field named `n`, the
published list carries exactly that field under `n` and the exact-name map
resolves `n` to it. -/
theorem typeFields_of_dedup_singleton (t : GoType) (n : String) (g : field)
    (h : (dedupFields (List.insertionSort fieldLeR (typeFieldsCollect t))).filter
      (fun f => f.name == n) = [g]) :
    (typeFields t).list.filter (fun f => f.name == n) = [g]
      ∧ (typeFields t).byExactName n = some g := by
  have hp : ((typeFields t).list).Perm
      (dedupFields (List.insertionSort fieldLeR (typeFieldsCollect t))) := by
    show (List.insertionSort byIndexLeR
        (dedupFields (List.insertionSort fieldLeR (typeFieldsCollect t)))).Perm
      (dedupFields (List.insertionSort fieldLeR (typeFieldsCollect t)))
    exact List.perm_insertionSort _ _
  have hf : ((typeFields t).list.filter (fun f => f.name == n)).Perm [g] := by
    have hpf := hp.filter (fun f => f.name == n)
    rw [h] at hpf
    exact hpf
  have hfl : (typeFields t).list.filter (fun f => f.name == n) = [g] :=
    List.perm_singleton.mp hf
  refine ⟨hfl, ?_⟩
  show ((typeFields t).list.reverse).find? (fun f => f.name == n) = some g
  apply find?_of_filter_singleton
  rw [List.filter_reverse, hfl]
  rfl

/-- If the annihilation pass leaves no field named `n`, the published list
carries no field under `n` and the exact-name map misses. -/
theorem typeFields_of_dedup_nil (t : GoType) (n : String)
    (h : (dedupFields (List.insertionSort fieldLeR (typeFieldsCollect t))).filter
      (fun f => f.name == n) = []) :
    (typeFields t).list.filter (fun f => f.name == n) = []
      ∧ (typeFields t).byExactName n = none := by
  have hp : ((typeFields t).list).Perm
      (dedupFields (List.insertionSort fieldLeR (typeFieldsCollect t))) := by
    show (List.insertionSort byIndexLeR
        (dedupFields (List.insertionSort fieldLeR (typeFieldsCollect t)))).Perm
      (dedupFields (List.insertionSort fieldLeR (typeFieldsCollect t)))
    exact List.perm_insertionSort _ _
  have hf : ((typeFields t).list.filter (fun f => f.name == n)).Perm [] := by
    have hpf := hp.filter (fun f => f.name == n)
    rw [h] at hpf
    exact hpf
  have hfl : (typeFields t).list.filter (fun f => f.name == n) = [] := hf.eq_nil
  refine ⟨hfl, ?_⟩
  show ((typeFields t).list.reverse).find? (fun f => f.name == n) = none
  apply find?_of_filter_nil
  rw [List.filter_reverse, hfl]
  rfl

/-- C6: for a struct type in which two or more candidate fields share the
effective name `n` at the same minimal embedding depth `d`: if exactly one
of the minimal-depth candidates is tagged, that tagged field is the visible
field for `n` — it is the unique entry named `n` in the published list and
the exact-name lookup returns it; if the tagged count at minimal depth is
anything other than one, the name is dropped from both the published list
and the exact-name lookup. -/
theorem C6_equal_depth_tie_break (t : GoType) (n : String) (d : Nat)
    (hmin : ∀ f ∈ (typeFieldsCollect t).filter (fun x => x.name == n),
      d ≤ f.index.length)
    (h2 : 2 ≤ (((typeFieldsCollect t).filter (fun x => x.name == n)).filter
      (fun x => x.index.length == d)).length) :
    (∀ g, ((typeFieldsCollect t).filter (fun x => x.name == n)).filter
          (fun x => x.tag && x.index.length == d) = [g] →
        ((typeFields t).list.filter (fun f => f.name == n) = [g]
          ∧ (typeFields t).byExactName n = some g))
    ∧ ((((typeFieldsCollect t).filter (fun x => x.name == n)).filter
          (fun x => x.tag && x.index.length == d)).length ≠ 1 →
        ((typeFields t).list.filter (fun f => f.name == n) = []
          ∧ (typeFields t).byExactName n = none)) := by
  haveI : IsTotal field fieldLeR := ⟨fieldLeR_total⟩
  haveI : IsTrans field fieldLeR := ⟨fieldLeR_trans⟩
  have hsorted : List.Pairwise fieldLeR
      (List.insertionSort fieldLeR (typeFieldsCollect t)) :=
    List.sorted_insertionSort fieldLeR (typeFieldsCollect t)
  have hpr := (List.perm_insertionSort fieldLeR (typeFieldsCollect t)).filter
    (fun x => x.name == n)
  have hrs : List.Pairwise fieldLeR
      ((List.insertionSort fieldLeR (typeFieldsCollect t)).filter
        (fun x => x.name == n)) :=
    hsorted.filter _
  have hname : ∀ f ∈ (List.insertionSort fieldLeR (typeFieldsCollect t)).filter
      (fun x => x.name == n), f.name = n := fun f hf => by
    simpa using (List.mem_filter.mp hf).2
  have hminr : ∀ f ∈ (List.insertionSort fieldLeR (typeFieldsCollect t)).filter
      (fun x => x.name == n), d ≤ f.index.length :=
    fun f hf => hmin f (hpr.mem_iff.mp hf)
  have h2r : 2 ≤ (((List.insertionSort fieldLeR (typeFieldsCollect t)).filter
      (fun x => x.name == n)).filter (fun x => x.index.length == d)).length := by
    have hq := (hpr.filter (fun x => x.index.length == d)).length_eq
    omega
  have hdom := dominant_of_sorted_min
    ((List.insertionSort fieldLeR (typeFieldsCollect t)).filter
      (fun x => x.name == n)) n d hrs hname hminr h2r
  have hlen2 : ¬(((List.insertionSort fieldLeR (typeFieldsCollect t)).filter
      (fun x => x.name == n)).length ≤ 1) := by
    have hle := List.length_filter_le (fun x => x.index.length == d)
      ((List.insertionSort fieldLeR (typeFieldsCollect t)).filter
        (fun x => x.name == n))
    omega
  have hdd := dedupFieldsF_filter n
    (List.insertionSort fieldLeR (typeFieldsCollect t)).length
    (List.insertionSort fieldLeR (typeFieldsCollect t)) (le_refl _) hsorted
  rw [if_neg hlen2] at hdd
  constructor
  · intro g hg
    have hq2 : ((List.insertionSort fieldLeR (typeFieldsCollect t)).filter
        (fun x => x.name == n)).filter (fun x => x.tag && x.index.length == d)
        = [g] := by
      apply List.perm_singleton.mp
      have hpq := hpr.filter (fun x => x.tag && x.index.length == d)
      rw [hg] at hpq
      exact hpq
    have hdomg := hdom.1 g hq2
    apply typeFields_of_dedup_singleton
    show (dedupFieldsF (List.insertionSort fieldLeR (typeFieldsCollect t)).length
      (List.insertionSort fieldLeR (typeFieldsCollect t))).filter
        (fun x => x.name == n) = [g]
    rw [hdd, hdomg]
  · intro hno
    have hq2n : (((List.insertionSort fieldLeR (typeFieldsCollect t)).filter
        (fun x => x.name == n)).filter
          (fun x => x.tag && x.index.length == d)).length ≠ 1 := by
      have hpq := (hpr.filter (fun x => x.tag && x.index.length == d)).length_eq
      omega
    have hdomn := hdom.2 hq2n
    apply typeFields_of_dedup_nil
    show (dedupFieldsF (List.insertionSort fieldLeR (typeFieldsCollect t)).length
      (List.insertionSort fieldLeR (typeFieldsCollect t))).filter
        (fun x => x.name == n) = []
    rw [hdd, hdomn]

theorem C6_equal_depth_tie_break_witness :
    ((∀ f ∈ (typeFieldsCollect tC6).filter (fun x => x.name == "B"),
        1 ≤ f.index.length)
      ∧ 2 ≤ (((typeFieldsCollect tC6).filter (fun x => x.name == "B")).filter
        (fun x => x.index.length == 1)).length)
    ∧ ((typeFields tC6).list.filter (fun f => f.name == "B")
        = [⟨"B", true, [0], intT⟩]
      ∧ (typeFields tC6).byExactName "B" = some ⟨"B", true, [0], intT⟩) :=
  ⟨⟨by decide, by decide⟩,
    (C6_equal_depth_tie_break tC6 "B" 1 (by decide) (by decide)).1
      ⟨"B", true, [0], intT⟩ (by decide)⟩

theorem set_append_len (nv : MiddleValue) (tail : List MiddleValue) :
    ∀ (pre : List MiddleValue), (pre ++ tail).set pre.length nv = pre ++ tail.set 0 nv := by
  intro pre
  induction pre with
  | nil => rfl
  | cons a l ih =>
    show (a :: (l ++ tail)).set (l.length + 1) nv = a :: (l ++ tail.set 0 nv)
    rw [List.set_cons_succ, ih]

theorem getD_append_len (x : MiddleValue) (post : List MiddleValue) :
    ∀ (pre : List MiddleValue), (pre ++ x :: post).getD pre.length {} = x := by
  intro pre
  induction pre with
  | nil => rfl
  | cons a l ih =>
    show (a :: (l ++ x :: post)).getD (l.length + 1) {} = x
    rw [List.getD_cons_succ, ih]

theorem mv_set_mid (root nv : MiddleValue) (done tail : List MiddleValue) (L : Nat) :
    MiddleValueList.set ⟨root :: done ++ tail, L⟩ (1 + done.length) nv
      = ⟨root :: done ++ tail.set 0 nv, L⟩ := by
  simp only [MiddleValueList.set]
  rw [Nat.add_comm 1 done.length]
  show (⟨(root :: (done ++ tail)).set (done.length + 1) nv, L⟩ : MiddleValueList) = _
  rw [List.set_cons_succ, set_append_len]
  rfl

theorem mv_get_mid (root x : MiddleValue) (done post : List MiddleValue) (L : Nat) :
    MiddleValueList.get ⟨root :: done ++ x :: post, L⟩ (1 + done.length) = x := by
  simp only [MiddleValueList.get]
  rw [Nat.add_comm 1 done.length]
  show (root :: (done ++ x :: post)).getD (done.length + 1) {} = x
  rw [List.getD_cons_succ, getD_append_len]

theorem getD_map_range :
    ∀ (body : List MiddleValue),
      (List.range body.length).map (fun i => body.getD i {}) = body := by
  intro body
  induction body with
  | nil => simp
  | cons b tlb ih =>
    rw [List.length_cons, List.range_succ_eq_map]
    simp only [List.map_cons, List.map_map, List.getD_cons_zero]
    rw [show ((fun i => (b :: tlb).getD i {}) ∘ Nat.succ) = (fun i => tlb.getD i {}) from
      funext (fun i => by simp [Function.comp, List.getD_cons_succ])]
    rw [ih]

theorem nodes_cons_eq_body (root : MiddleValue) (body : List MiddleValue) (L n : Nat)
    (h : body.length = n) :
    MiddleValueList.nodes ⟨root :: body, L⟩ 1 n = body := by
  subst h
  simp only [MiddleValueList.nodes, MiddleValueList.get]
  rw [show (fun i => (root :: body).getD (1 + i) {}) = (fun i => body.getD i {}) from
    funext (fun i => by rw [Nat.add_comm 1 i]; exact List.getD_cons_succ)]
  exact getD_map_range body

theorem length_filter_partition (p : (GoVal × GoVal) → Bool) :
    ∀ (l : List (GoVal × GoVal)),
      (l.filter p).length + (l.filter (fun e => !p e)).length = l.length := by
  intro l
  induction l with
  | nil => rfl
  | cons e tl ih =>
    by_cases hp : p e = true
    · rw [List.filter_cons_of_pos hp, List.filter_cons_of_neg (by simp [hp])]
      simp only [List.length_cons]
      omega
    · rw [List.filter_cons_of_neg hp, List.filter_cons_of_pos (by simpa using hp)]
      simp only [List.length_cons]
      omega

theorem mapUpsert_append_of_not_mem {α : Type} (k : String) (v : α) :
    ∀ (acc : List (String × α)), (∀ kv ∈ acc, kv.1 ≠ k) →
      mapUpsert acc k v = acc ++ [(k, v)] := by
  intro acc
  induction acc with
  | nil => intro _; rfl
  | cons h tl ih =>
    intro hne
    obtain ⟨k1, v1⟩ := h
    have hk : (k1 == k) = false := beq_eq_false_iff_ne.mpr (hne (k1, v1) (by simp))
    simp only [mapUpsert, hk, Bool.false_eq_true, if_false, List.cons_append]
    rw [ih (fun kv hkv => hne kv (by simp [hkv]))]

theorem foldl_mapUpsert_nodes :
    ∀ (ps : List MiddleValue) (acc : List (String × Option GoVal)),
      (∀ p ∈ ps, ∀ kv ∈ acc, kv.1 ≠ p.name) →
      List.Pairwise (fun a b => a.name ≠ b.name) ps →
      ps.foldl (fun a p => mapUpsert a p.name p.value) acc
        = acc ++ ps.map (fun p => (p.name, p.value)) := by
  intro ps
  induction ps with
  | nil => intro acc _ _; simp
  | cons p tl ih =>
    intro acc hna hpw
    rw [List.foldl_cons]
    rw [mapUpsert_append_of_not_mem p.name p.value acc (fun kv hkv => hna p (by simp) kv hkv)]
    have hacc2 : ∀ q ∈ tl, ∀ kv ∈ acc ++ [(p.name, p.value)], kv.1 ≠ q.name := by
      intro q hq kv hkv
      rcases List.mem_append.mp hkv with h | h
      · exact hna q (by simp [hq]) kv h
      · simp only [List.mem_singleton] at h
        rw [h]
        exact (List.pairwise_cons.mp hpw).1 q hq
    rw [ih _ hacc2 (List.pairwise_cons.mp hpw).2]
    simp

theorem encodeRun_mapEntries_mixed (root : MiddleValue) :
    ∀ (es : List (GoVal × GoVal)) (done : List MiddleValue) (m fuel : Nat),
      (∀ e ∈ es, (validMapKey e.1).2 = true →
        (match e.2 with | GoVal.scalar _ _ => true | _ => false) = true) →
      (es.filter (fun e => (validMapKey e.1).2)).length ≤ m →
      es.length < fuel →
      encodeRun fuel ⟨root :: done ++ List.replicate m ({} : MiddleValue),
          done.length + m + 1⟩
          (.mapEntries 1 done.length es)
        = .ok ⟨root :: done
            ++ (es.filter (fun e => (validMapKey e.1).2)).map
                (fun e => (⟨.ValueValueType, (validMapKey e.1).1, some e.2, 0, 0⟩ : MiddleValue))
            ++ List.replicate
                (m - (es.filter (fun e => (validMapKey e.1).2)).length) ({} : MiddleValue),
            done.length + m + 1⟩ := by
  intro es
  induction es with
  | nil =>
    intro done m fuel _ _ hf
    cases fuel with
    | zero => omega
    | succ f =>
      simp [encodeRun]
  | cons e tl ih =>
    intro done m fuel hS hV hf
    obtain ⟨ky, vl⟩ := e
    cases fuel with
    | zero => omega
    | succ f =>
      by_cases hkv : (validMapKey ky).2 = true
      · -- retained entry: its value is a scalar
        have hsc := hS (ky, vl) (by simp) hkv
        cases vl with
        | ptr a b => simp at hsc
        | iface a => simp at hsc
        | slice a b => simp at hsc
        | arrayV a b => simp at hsc
        | mapV a b c => simp at hsc
        | structV a b => simp at hsc
        | otherV a b => simp at hsc
        | scalar sk lit =>
          have hstep : encodeRun (f + 1)
              ⟨root :: done ++ List.replicate m ({} : MiddleValue), done.length + m + 1⟩
              (.mapEntries 1 done.length ((ky, GoVal.scalar sk lit) :: tl))
            = if !(validMapKey ky).2 then
                encodeRun f
                  ⟨root :: done ++ List.replicate m ({} : MiddleValue), done.length + m + 1⟩
                  (.mapEntries 1 done.length tl)
              else
                match encodeRun f
                    ⟨root :: done ++ List.replicate m ({} : MiddleValue), done.length + m + 1⟩
                    (.val (1 + done.length) (GoVal.scalar sk lit)) with
                | .error err => .error err
                | .ok l1 =>
                  encodeRun f
                    (l1.set (1 + done.length)
                      { l1.get (1 + done.length) with name := (validMapKey ky).1 })
                    (.mapEntries 1 (done.length + 1) tl) := rfl
          rw [hstep, if_neg (by simp [hkv])]
          have hf1 : 0 < f := by
            simp only [List.length_cons] at hf
            omega
          obtain ⟨f', rfl⟩ : ∃ f', f = f' + 1 := ⟨f - 1, by omega⟩
          have hval : encodeRun (f' + 1)
              ⟨root :: done ++ List.replicate m ({} : MiddleValue), done.length + m + 1⟩
              (.val (1 + done.length) (GoVal.scalar sk lit))
            = .ok (MiddleValueList.set
                ⟨root :: done ++ List.replicate m ({} : MiddleValue), done.length + m + 1⟩
                (1 + done.length)
                { type := .ValueValueType, value := some (GoVal.scalar sk lit) }) := rfl
          simp only [hval]
          have hm1 : 1 ≤ m := by
            rw [List.filter_cons_of_pos (by simpa using hkv)] at hV
            simp only [List.length_cons] at hV
            omega
          obtain ⟨m', rfl⟩ : ∃ m', m = m' + 1 := ⟨m - 1, by omega⟩
          rw [mv_set_mid]
          rw [List.replicate_succ, List.set_cons_zero]
          rw [mv_get_mid]
          rw [mv_set_mid]
          rw [List.set_cons_zero]
          have hnode : ({ ({ type := .ValueValueType, value := some (GoVal.scalar sk lit) }
              : MiddleValue) with name := (validMapKey ky).1 } : MiddleValue)
            = ⟨.ValueValueType, (validMapKey ky).1, some (GoVal.scalar sk lit), 0, 0⟩ := rfl
          rw [hnode]
          have hih := ih (done ++
              [(⟨.ValueValueType, (validMapKey ky).1, some (GoVal.scalar sk lit), 0, 0⟩ :
                MiddleValue)]) m' (f' + 1)
            (fun q hq => hS q (by simp [hq]))
            (by rw [List.filter_cons_of_pos (by simpa using hkv)] at hV
                simp only [List.length_cons] at hV
                omega)
            (by simp only [List.length_cons] at hf
                omega)
          simp only [List.length_append, List.length_cons, List.length_nil, Nat.zero_add,
            List.append_assoc, List.cons_append, List.nil_append] at hih
          rw [show done.length + 1 + m' + 1 = done.length + (m' + 1) + 1 from by omega] at hih
          refine hih.trans ?_
          rw [List.filter_cons_of_pos (by simpa using hkv)]
          simp only [List.map_cons, List.length_cons, List.append_assoc, List.cons_append]
          rw [show m' + 1 - ((tl.filter (fun e => (validMapKey e.1).2)).length + 1)
            = m' - (tl.filter (fun e => (validMapKey e.1).2)).length from by omega]
      · -- skipped entry
        have hkvf : (validMapKey ky).2 = false := by simpa using hkv
        have hstep : encodeRun (f + 1)
            ⟨root :: done ++ List.replicate m ({} : MiddleValue), done.length + m + 1⟩
            (.mapEntries 1 done.length ((ky, vl) :: tl))
          = if !(validMapKey ky).2 then
              encodeRun f
                ⟨root :: done ++ List.replicate m ({} : MiddleValue), done.length + m + 1⟩
                (.mapEntries 1 done.length tl)
            else
              match encodeRun f
                  ⟨root :: done ++ List.replicate m ({} : MiddleValue), done.length + m + 1⟩
                  (.val (1 + done.length) vl) with
              | .error err => .error err
              | .ok l1 =>
                encodeRun f
                  (l1.set (1 + done.length)
                    { l1.get (1 + done.length) with name := (validMapKey ky).1 })
                  (.mapEntries 1 (done.length + 1) tl) := rfl
        rw [hstep, if_pos (by simp [hkvf])]
        rw [ih done m f (fun q hq => hS q (by simp [hq]))
          (by rw [List.filter_cons_of_neg (by simp [hkvf])] at hV; exact hV)
          (by simp only [List.length_cons] at hf; omega)]
        rw [List.filter_cons_of_neg (by simp [hkvf])]

theorem ifaceRun_obj_value_nodes (l : MiddleValueList) (s : Nat) :
    ∀ (ps : List MiddleValue) (acc : List (String × Option GoVal)) (fuel : Nat),
      ps.length + s < fuel →
      (∀ p ∈ ps, p.type = .ValueValueType ∧ p.value ≠ none) →
      ifaceRun fuel l (.obj (ps ++ List.replicate s ({} : MiddleValue)) acc)
        = .ok (some (boxObject (if s = 0
            then ps.foldl (fun a p => mapUpsert a p.name p.value) acc
            else mapUpsert (ps.foldl (fun a p => mapUpsert a p.name p.value) acc)
              "" none))) := by
  intro ps
  induction ps with
  | nil =>
    intro acc fuel hf _
    simp only [List.nil_append, List.foldl_nil]
    exact ifaceRun_obj_replicate l s acc fuel (by omega)
  | cons p tl ih =>
    intro acc fuel hf hp
    obtain ⟨hpt, hpv⟩ := hp p (by simp)
    cases fuel with
    | zero => omega
    | succ f =>
      have hstep : ifaceRun (f + 1) l
          (.obj ((p :: tl) ++ List.replicate s ({} : MiddleValue)) acc)
        = match ifaceRun f l (.val p) with
          | .error err => .error err
          | .ok h => ifaceRun f l
              (.obj (tl ++ List.replicate s ({} : MiddleValue)) (mapUpsert acc p.name h)) := rfl
      obtain ⟨v, hv⟩ : ∃ v, p.value = some v := Option.ne_none_iff_exists'.mp hpv
      obtain ⟨f', rfl⟩ : ∃ f', f = f' + 1 := ⟨f - 1, by
        simp only [List.length_cons] at hf
        omega⟩
      have hval : ifaceRun (f' + 1) l (.val p) = .ok (some v) := by
        simp only [ifaceRun, hpt, hv]
      rw [hstep]
      simp only [hval]
      rw [ih (mapUpsert acc p.name (some v)) (f' + 1)
        (by simp only [List.length_cons] at hf; omega)
        (fun q hq => hp q (by simp [hq]))]
      rw [← hv]
      simp only [List.foldl_cons]

/-- C7 (amended): entries whose key cannot be read as a plain string are
silently skipped (no error) and contribute no named child, but each skipped
entry still reserves a child slot that stays an unnamed zero (Null) node.  A
dynamically-typed destination therefore receives the string-keyed entries
plus exactly one extra entry under the empty key with nil value whenever at
least one entry was skipped, and nothing extra when none was — here proved
for entries with scalar values whose retained keys are distinct and
non-empty, the shape every real Go map with string-readable keys has (map
keys are distinct; a retained empty key would make the outcome depend on map
iteration order). -/
theorem C7_skipped_entries_null_child_besides_retained (k : Nat) (kt vt : GoType)
    (entries : List (GoVal × GoVal))
    (hS : ∀ e ∈ entries, (validMapKey e.1).2 = true →
      (match e.2 with | GoVal.scalar _ _ => true | _ => false) = true)
    (hK : ∀ e ∈ entries, (validMapKey e.1).2 = true → (validMapKey e.1).1 ≠ "")
    (hD : List.Pairwise (fun a b => (validMapKey a.1).1 ≠ (validMapKey b.1).1)
      (entries.filter (fun e => (validMapKey e.1).2))) :
    fastEncoding.Convert (entries.length + k + 4) (some (.mapV kt vt (some entries)))
      (some (.ptr .iface (some (.iface none)))) none
    = .ok (none, some (.ptr .iface (some (.iface (some (boxObject
        ((entries.filter (fun e => (validMapKey e.1).2)).map
            (fun e => ((validMapKey e.1).1, some e.2))
          ++ (if (entries.filter (fun e => !(validMapKey e.1).2)).length = 0
              then [] else [("", none)])))))))) := by
  by_cases hne : entries = []
  · subst hne
    simp [fastEncoding.Convert, goIsNil, newMiddleValueList, reflectValue, encodeRun,
      MiddleValueList.get, MiddleValueList.set, fromMiddleValue, matRun, makeValue,
      rebuild, ifaceRun, boxObject, MiddleValueList.nodes]
  · have hn0 : entries.length ≠ 0 := by simpa using hne
    have hpos : 0 < entries.length := Nat.pos_of_ne_zero hn0
    have hvle : (entries.filter (fun e => (validMapKey e.1).2)).length ≤ entries.length :=
      List.length_filter_le _ _
    have hpart := length_filter_partition (fun e => (validMapKey e.1).2) entries
    have henc : reflectValue (entries.length + k + 4) (newMiddleValueList none) 0
        (.mapV kt vt (some entries))
        = .ok ⟨(⟨.MapValueType, "", none, entries.length, 1⟩ : MiddleValue) ::
            (entries.filter (fun e => (validMapKey e.1).2)).map
              (fun e => (⟨.ValueValueType, (validMapKey e.1).1, some e.2, 0, 0⟩ : MiddleValue))
            ++ List.replicate
              (entries.length - (entries.filter (fun e => (validMapKey e.1).2)).length)
              ({} : MiddleValue),
            entries.length + 1⟩ := by
      have h1 : reflectValue (entries.length + k + 4) (newMiddleValueList none) 0
          (.mapV kt vt (some entries))
          = if entries.length = 0 then .ok ⟨[⟨.MapValueType, "", none, 0, 0⟩], 1⟩
            else encodeRun (entries.length + k + 2)
              (MiddleValueList.pushN ⟨[⟨.MapValueType, "", none, entries.length, 1⟩], 1⟩
                entries.length)
              (.mapEntries 1 0 entries) := rfl
      rw [h1, if_neg hn0]
      have h2 := pushN_from ⟨.MapValueType, "", none, entries.length, 1⟩ entries.length 0
      simp only [Nat.zero_add, List.replicate_zero] at h2
      rw [h2]
      have hloop := encodeRun_mapEntries_mixed ⟨.MapValueType, "", none, entries.length, 1⟩
        entries [] entries.length (entries.length + k + 2) hS
        (List.length_filter_le _ _) (by omega)
      simp only [List.nil_append, List.length_nil, Nat.zero_add] at hloop
      exact hloop
    have hlenbody : ((entries.filter (fun e => (validMapKey e.1).2)).map
          (fun e => (⟨.ValueValueType, (validMapKey e.1).1, some e.2, 0, 0⟩ : MiddleValue))
        ++ List.replicate
          (entries.length - (entries.filter (fun e => (validMapKey e.1).2)).length)
          ({} : MiddleValue)).length = entries.length := by
      rw [List.length_append, List.length_map, List.length_replicate]
      omega
    have hprops : ∀ p ∈ (entries.filter (fun e => (validMapKey e.1).2)).map
        (fun e => (⟨.ValueValueType, (validMapKey e.1).1, some e.2, 0, 0⟩ : MiddleValue)),
        p.type = .ValueValueType ∧ p.value ≠ none := by
      intro p hp
      obtain ⟨e, _, rfl⟩ := List.mem_map.mp hp
      exact ⟨rfl, by simp⟩
    have hfold : ((entries.filter (fun e => (validMapKey e.1).2)).map
          (fun e => (⟨.ValueValueType, (validMapKey e.1).1, some e.2, 0, 0⟩ : MiddleValue))).foldl
          (fun a p => mapUpsert a p.name p.value) []
        = (entries.filter (fun e => (validMapKey e.1).2)).map
            (fun e => ((validMapKey e.1).1, some e.2)) := by
      rw [foldl_mapUpsert_nodes _ [] (by simp)
        (List.pairwise_map.mpr (hD.imp (fun h => by simpa using h)))]
      rw [List.nil_append, List.map_map]
      rfl
    have hkeys : ∀ kv ∈ (entries.filter (fun e => (validMapKey e.1).2)).map
        (fun e => ((validMapKey e.1).1, some e.2)), kv.1 ≠ "" := by
      intro kv hkv
      obtain ⟨e, he, rfl⟩ := List.mem_map.mp hkv
      exact hK e (List.mem_filter.mp he).1 (List.mem_filter.mp he).2
    have hX : (if entries.length - (entries.filter (fun e => (validMapKey e.1).2)).length = 0
        then ((entries.filter (fun e => (validMapKey e.1).2)).map
            (fun e => (⟨.ValueValueType, (validMapKey e.1).1, some e.2, 0, 0⟩ : MiddleValue))).foldl
            (fun a p => mapUpsert a p.name p.value) []
        else mapUpsert (((entries.filter (fun e => (validMapKey e.1).2)).map
            (fun e => (⟨.ValueValueType, (validMapKey e.1).1, some e.2, 0, 0⟩ : MiddleValue))).foldl
            (fun a p => mapUpsert a p.name p.value) []) "" none)
        = (entries.filter (fun e => (validMapKey e.1).2)).map
            (fun e => ((validMapKey e.1).1, some e.2))
          ++ (if (entries.filter (fun e => !(validMapKey e.1).2)).length = 0
              then [] else [("", none)]) := by
      rw [hfold]
      by_cases hsk : (entries.filter (fun e => !(validMapKey e.1).2)).length = 0
      · rw [if_pos (by omega), if_pos hsk, List.append_nil]
      · rw [if_neg (by omega), if_neg hsk]
        exact mapUpsert_append_of_not_mem "" none _ hkeys
    have hmat : fromMiddleValue (entries.length + k + 4)
        ⟨(⟨.MapValueType, "", none, entries.length, 1⟩ : MiddleValue) ::
            (entries.filter (fun e => (validMapKey e.1).2)).map
              (fun e => (⟨.ValueValueType, (validMapKey e.1).1, some e.2, 0, 0⟩ : MiddleValue))
            ++ List.replicate
              (entries.length - (entries.filter (fun e => (validMapKey e.1).2)).length)
              ({} : MiddleValue),
            entries.length + 1⟩
        (MiddleValueList.get ⟨(⟨.MapValueType, "", none, entries.length, 1⟩ : MiddleValue) ::
            (entries.filter (fun e => (validMapKey e.1).2)).map
              (fun e => (⟨.ValueValueType, (validMapKey e.1).1, some e.2, 0, 0⟩ : MiddleValue))
            ++ List.replicate
              (entries.length - (entries.filter (fun e => (validMapKey e.1).2)).length)
              ({} : MiddleValue),
            entries.length + 1⟩ 0)
        (.ptr .iface (some (.iface none)))
        = .ok (.ptr .iface (some (.iface (some (boxObject
            ((entries.filter (fun e => (validMapKey e.1).2)).map
                (fun e => ((validMapKey e.1).1, some e.2))
              ++ (if (entries.filter (fun e => !(validMapKey e.1).2)).length = 0
                  then [] else [("", none)]))))))) := by
      have h3 : fromMiddleValue (entries.length + k + 4)
          ⟨(⟨.MapValueType, "", none, entries.length, 1⟩ : MiddleValue) ::
              (entries.filter (fun e => (validMapKey e.1).2)).map
                (fun e => (⟨.ValueValueType, (validMapKey e.1).1, some e.2, 0, 0⟩ : MiddleValue))
              ++ List.replicate
                (entries.length - (entries.filter (fun e => (validMapKey e.1).2)).length)
                ({} : MiddleValue),
              entries.length + 1⟩
          (MiddleValueList.get ⟨(⟨.MapValueType, "", none, entries.length, 1⟩ : MiddleValue) ::
              (entries.filter (fun e => (validMapKey e.1).2)).map
                (fun e => (⟨.ValueValueType, (validMapKey e.1).1, some e.2, 0, 0⟩ : MiddleValue))
              ++ List.replicate
                (entries.length - (entries.filter (fun e => (validMapKey e.1).2)).length)
                ({} : MiddleValue),
              entries.length + 1⟩ 0)
          (.ptr .iface (some (.iface none)))
          = (match ifaceRun (entries.length + k + 2)
              ⟨(⟨.MapValueType, "", none, entries.length, 1⟩ : MiddleValue) ::
                  (entries.filter (fun e => (validMapKey e.1).2)).map
                    (fun e => (⟨.ValueValueType, (validMapKey e.1).1, some e.2, 0, 0⟩ : MiddleValue))
                  ++ List.replicate
                    (entries.length - (entries.filter (fun e => (validMapKey e.1).2)).length)
                    ({} : MiddleValue),
                  entries.length + 1⟩
              (.obj (if entries.length > 0 then
                  MiddleValueList.nodes
                    ⟨(⟨.MapValueType, "", none, entries.length, 1⟩ : MiddleValue) ::
                        (entries.filter (fun e => (validMapKey e.1).2)).map
                          (fun e => (⟨.ValueValueType, (validMapKey e.1).1, some e.2, 0, 0⟩ : MiddleValue))
                        ++ List.replicate
                          (entries.length - (entries.filter (fun e => (validMapKey e.1).2)).length)
                          ({} : MiddleValue),
                        entries.length + 1⟩ 1 entries.length
                else []) []) with
            | .error err => .error err
            | .ok ro => .ok (rebuild [.ptrL .iface] (.iface ro))) := rfl
      rw [h3, if_pos hpos]
      have hnodes : MiddleValueList.nodes
          ⟨(⟨.MapValueType, "", none, entries.length, 1⟩ : MiddleValue) ::
              (entries.filter (fun e => (validMapKey e.1).2)).map
                (fun e => (⟨.ValueValueType, (validMapKey e.1).1, some e.2, 0, 0⟩ : MiddleValue))
              ++ List.replicate
                (entries.length - (entries.filter (fun e => (validMapKey e.1).2)).length)
                ({} : MiddleValue),
              entries.length + 1⟩ 1 entries.length
          = (entries.filter (fun e => (validMapKey e.1).2)).map
              (fun e => (⟨.ValueValueType, (validMapKey e.1).1, some e.2, 0, 0⟩ : MiddleValue))
            ++ List.replicate
              (entries.length - (entries.filter (fun e => (validMapKey e.1).2)).length)
              ({} : MiddleValue) :=
        nodes_cons_eq_body _ _ _ _ hlenbody
      simp only [hnodes]
      have hobj := ifaceRun_obj_value_nodes
        ⟨(⟨.MapValueType, "", none, entries.length, 1⟩ : MiddleValue) ::
            (entries.filter (fun e => (validMapKey e.1).2)).map
              (fun e => (⟨.ValueValueType, (validMapKey e.1).1, some e.2, 0, 0⟩ : MiddleValue))
            ++ List.replicate
              (entries.length - (entries.filter (fun e => (validMapKey e.1).2)).length)
              ({} : MiddleValue),
            entries.length + 1⟩
        (entries.length - (entries.filter (fun e => (validMapKey e.1).2)).length)
        ((entries.filter (fun e => (validMapKey e.1).2)).map
          (fun e => (⟨.ValueValueType, (validMapKey e.1).1, some e.2, 0, 0⟩ : MiddleValue)))
        [] (entries.length + k + 2)
        (by rw [List.length_map]; omega) hprops
      rw [hX] at hobj
      simp only [hobj]
      rfl
    have hfinal : fastEncoding.Convert (entries.length + k + 4)
        (some (.mapV kt vt (some entries)))
        (some (.ptr .iface (some (.iface none)))) none
        = (match reflectValue (entries.length + k + 4) (newMiddleValueList none) 0
              (.mapV kt vt (some entries)) with
          | .error err => .error err
          | .ok l1 =>
            match fromMiddleValue (entries.length + k + 4) l1 (l1.get 0)
                (.ptr .iface (some (.iface none))) with
            | .error err => .error err
            | .ok dv1 => .ok (none, some dv1)) := rfl
    simp only [hfinal, henc, hmat]

/-- Witness for the amended C7: `map[interface{}]int{"a": 1, 7: 2}` into an
`interface{}` destination yields the boxed map `{"a": 1, "": nil}`. -/
theorem C7_skipped_entries_null_child_besides_retained_witness :
    ((∀ e ∈ [((strV "a" : GoVal), (intV 1 : GoVal)), ((intV 7 : GoVal), (intV 2 : GoVal))],
        (validMapKey e.1).2 = true →
        (match e.2 with | GoVal.scalar _ _ => true | _ => false) = true)
      ∧ (∀ e ∈ [((strV "a" : GoVal), (intV 1 : GoVal)), ((intV 7 : GoVal), (intV 2 : GoVal))],
        (validMapKey e.1).2 = true → (validMapKey e.1).1 ≠ "")
      ∧ List.Pairwise (fun a b => (validMapKey a.1).1 ≠ (validMapKey b.1).1)
        ([((strV "a" : GoVal), (intV 1 : GoVal)), ((intV 7 : GoVal), (intV 2 : GoVal))].filter
          (fun e => (validMapKey e.1).2)))
    ∧ fastEncoding.Convert 6
        (some (.mapV .iface intT (some [(strV "a", intV 1), (intV 7, intV 2)])))
        (some (.ptr .iface (some (.iface none)))) none
      = .ok (none, some (.ptr .iface (some (.iface (some (boxObject
          [("a", some (intV 1)), ("", none)])))))) :=
  ⟨⟨by decide, by decide, by decide⟩,
    C7_skipped_entries_null_child_besides_retained 0 .iface intT
      [(strV "a", intV 1), (intV 7, intV 2)] (by decide) (by decide) (by decide)⟩
